import Mathlib

/-!
Verification development for the nanoclaw repository: the execution-scheduler
core (group queue, execution-handle timeout supervision, status snapshot and
orphan reconciliation) and the channel adapters (Telegram, Discord) together
with the media-path helpers.

The group queue, timeout supervisor, status file and orphan reconciler are
modelled from the specification (their implementation files `src/group-queue.ts`,
`src/status-file.ts`, `src/container-runtime.ts` are not part of the source
tree; only the design documents describing them are).  The channel senders,
message handlers and `sanitizeFilename` / `buildMediaPath` are shallow
embeddings of the TypeScript in `src/channels/telegram.ts`,
`src/channels/discord.ts` and the media module.
-/

namespace Nanoclaw

/-! ## Settlement statuses (spec section 7) -/

inductive SettleStatus where
  | success
  | failure
  | cancelled
  | timeoutIdle
  | timeoutHard
deriving DecidableEq

/-! ## Execution-handle timeout supervision (spec section 4.2) -/

/-- Modelled from the spec: the timer state of one Execution Handle
(`src/group-queue.ts` timeout supervision is not in the source tree).
`activatedAt` is fixed at activation; `lastActivityAt` moves on every
activity signal; `settled` records the terminal status once settled. -/
structure HandleTimers where
  activatedAt : Nat
  lastActivityAt : Nat
  settled : Option SettleStatus
deriving DecidableEq

/-- The hard deadline: `activatedAt + AGENT_TIMEOUT`, independent of activity. -/
def hardDeadline (AGENT_TIMEOUT : Nat) (h : HandleTimers) : Nat :=
  h.activatedAt + AGENT_TIMEOUT

/-- The idle deadline: `IDLE_TIMEOUT` after the last activity signal. -/
def idleDeadline (IDLE_TIMEOUT : Nat) (h : HandleTimers) : Nat :=
  h.lastActivityAt + IDLE_TIMEOUT

/-- Modelled from the spec: an activity signal on a still-running handle resets
`lastActivityAt` (spec sections 4.1 and 4.2); it is a no-op on a settled handle. -/
def applyActivity (h : HandleTimers) (now : Nat) : HandleTimers :=
  if h.settled.isSome then h else { h with lastActivityAt := now }

/-- Modelled from the spec: the hard-timeout timer callback.  If the handle is
not yet settled and the hard deadline has been reached, the handle settles with
status `timeout:hard`; otherwise the fire is a no-op (spec section 4.2). -/
def fireHardTimeout (AGENT_TIMEOUT : Nat) (h : HandleTimers) (now : Nat) : HandleTimers :=
  if h.settled = none ∧ hardDeadline AGENT_TIMEOUT h ≤ now then
    { h with settled := some SettleStatus.timeoutHard }
  else h

/-! ## Status snapshot and orphan reconciliation (spec section 4.4,
docs/status-file-plan.md) -/

/-- Modelled from the spec: the persisted status record, schema from
docs/status-file-plan.md (`src/status-file.ts` is not in the source tree).
Timestamps are abstract instants. -/
structure StatusSnapshot where
  pid : Nat
  startedAt : Nat
  updatedAt : Nat
  activeTasks : Nat
  activeGroups : List String
  containers : List String
deriving DecidableEq

/-- Modelled from the spec: `isStale` from docs/status-file-plan.md checks
whether the pid recorded in the snapshot is no longer alive; the signal-0
liveness probe is abstracted as a boolean-valued function of the pid. -/
def isStale (pidAlive : Nat → Bool) (st : StatusSnapshot) : Bool :=
  !(pidAlive st.pid)

/-- The outcome of orphan reconciliation: which leftover containers were
destroyed and whether a warning was surfaced. -/
structure CleanupResult where
  killed : List String
  warned : Bool
deriving DecidableEq

/-- Modelled from the spec: `cleanupOrphans` from `src/container-runtime.ts`
(not in the source tree), per docs/status-file-plan.md change 4 and spec
section 4.4.  No status file, or a stale (dead-pid) file, means full cleanup of
the leftover containers; a live previous process with `activeTasks > 0` means
skip all destructive work and surface a warning. -/
def cleanupOrphans (pidAlive : Nat → Bool) (status : Option StatusSnapshot)
    (runningContainers : List String) : CleanupResult :=
  match status with
  | none => { killed := runningContainers, warned := false }
  | some st =>
      if !(isStale pidAlive st) && decide (0 < st.activeTasks) then
        { killed := [], warned := true }
      else
        { killed := runningContainers, warned := false }

/-! ## Outbound message chunking (src/channels/telegram.ts sendMessage,
src/channels/discord.ts sendMessage) -/

/-- The slices `s.slice(i, i + maxLen)` for `i = 0, maxLen, 2*maxLen, ...`
while `i < s.length` — the loop bodies of the send loops.  Strings are
embedded as character lists. -/
def sliceChunks (maxLen : Nat) (s : List Char) : List (List Char) :=
  (List.range ((s.length + maxLen - 1) / maxLen)).map
    (fun k => (s.drop (k * maxLen)).take maxLen)

/-- The common shape of both senders: one message when the text is within the
per-message limit, otherwise consecutive slices of at most `maxLen`. -/
def sendChunks (maxLen : Nat) (s : List Char) : List (List Char) :=
  if s.length ≤ maxLen then [s] else sliceChunks maxLen s

/-- `TelegramChannel.sendMessage` (src/channels/telegram.ts lines 333-360):
formats the text to MarkdownV2 and sends it in chunks of at most 4096
characters.  The external `telegramify-markdown` formatter is abstracted as a
function argument; each produced chunk is one `bot.api.sendMessage` call, in
order. -/
def telegramSendMessage (toMarkdownV2 : List Char → List Char)
    (text : List Char) : List (List Char) :=
  sendChunks 4096 (toMarkdownV2 text)

/-- `DiscordChannel.sendMessage` (src/channels/discord.ts lines 336-366): sends
the text as-is in chunks of at most 2000 characters; each chunk is one
`textChannel.send` call, in order. -/
def discordSendMessage (text : List Char) : List (List Char) :=
  sendChunks 2000 text

/-! ## Inbound message handlers (src/channels/telegram.ts message:text,
src/channels/discord.ts MessageCreate) -/

/-- The externally observable calls a handler makes into the host:
`onChatMetadata` and `onMessage`. -/
inductive ChannelEffect where
  | chatMetadata (chatJid : String)
  | deliver (chatJid : String) (content : String)
deriving DecidableEq

/-- The `message:text` handler of `TelegramChannel.connect`
(src/channels/telegram.ts lines 78-147).  Commands (leading `/`) are skipped;
the chat key is `tg:` ++ chat id; an `@bot` mention prepends the trigger when
`TRIGGER_PATTERN` does not already match; chat metadata is always recorded for
discovery, and the message is delivered only when the chat key is registered.
The trigger test and the entity-scan mention detection are abstracted as
arguments. -/
def telegramTextHandler (trigger : String → Bool) (assistantName : String)
    (registered : List String) (chatId : Int) (text : String)
    (botMentioned : Bool) : List ChannelEffect :=
  if text.startsWith "/" then []
  else
    let chatJid := "tg:" ++ toString chatId
    let content :=
      if botMentioned && !(trigger text) then
        "@" ++ assistantName ++ " " ++ text
      else text
    ChannelEffect.chatMetadata chatJid ::
      (if chatJid ∈ registered then [ChannelEffect.deliver chatJid content] else [])

/-- The `MessageCreate` handler of `DiscordChannel.connect`
(src/channels/discord.ts lines 45-152).  Bot-authored messages are ignored;
the chat key is `dc:` ++ channel id; a bot @mention is stripped and the trigger
prepended when absent; attachment descriptions (computed by
`processAttachments`, abstracted here as its resulting list) and the reply
prefix are folded into the content; chat metadata is always recorded, and the
message is delivered only when the chat key is registered. -/
def discordMessageHandler (trigger : String → Bool) (assistantName : String)
    (registered : List String) (authorIsBot : Bool) (channelId : String)
    (content0 : String) (clientUserSet : Bool) (isBotMentioned : Bool)
    (stripMention : String → String) (attachmentDescs : List String)
    (replyAuthor : Option String) : List ChannelEffect :=
  if authorIsBot then []
  else
    let chatJid := "dc:" ++ channelId
    let content1 :=
      if clientUserSet && isBotMentioned then
        let stripped := stripMention content0
        if trigger stripped then stripped
        else "@" ++ assistantName ++ " " ++ stripped
      else content0
    let content2 :=
      if attachmentDescs.isEmpty then content1
      else if content1 ≠ "" then
        content1 ++ "\n" ++ String.intercalate "\n" attachmentDescs
      else String.intercalate "\n" attachmentDescs
    let content3 :=
      match replyAuthor with
      | some a => "[Reply to " ++ a ++ "] " ++ content2
      | none => content2
    ChannelEffect.chatMetadata chatJid ::
      (if chatJid ∈ registered then [ChannelEffect.deliver chatJid content3] else [])

/-! ## Filename sanitization and media paths (src/media.ts, quoted in
docs/remove-containers-plan.md lines 224-235) -/

/-- The character class `[/\\:\0]` of the first replace in `sanitizeFilename`. -/
def isStrippedChar (c : Char) : Bool :=
  c = '/' || c = '\\' || c = ':' || c = Char.ofNat 0

/-- `.replace(/[/\\:\0]/g, '_')`: every path separator, colon and NUL becomes
an underscore. -/
def replaceSeparators (cs : List Char) : List Char :=
  cs.map (fun c => if isStrippedChar c then '_' else c)

/-- `.replace(/\.{2,}/g, '.')`: every maximal run of consecutive dots collapses
to a single dot (a run of length one is left as-is, which the single-dot output
also covers). -/
def collapseDots (cs : List Char) : List Char :=
  match cs with
  | [] => []
  | [c] => [c]
  | a :: b :: rest =>
    if a = '.' ∧ b = '.' then collapseDots ('.' :: rest)
    else a :: collapseDots (b :: rest)
termination_by cs.length
decreasing_by
  · simp
  · simp

/-- `sanitizeFilename` from src/media.ts: strip separators and NUL, collapse
dot runs, then truncate to 200 characters (in that order). -/
def sanitizeFilename (cs : List Char) : List Char :=
  (collapseDots (replaceSeparators cs)).take 200

/-- Split a string (as a character list) on `/`, the POSIX separator —
the segment decomposition `path.join` works with. -/
def splitOnSlash (cs : List Char) : List (List Char) :=
  match cs with
  | [] => [[]]
  | c :: rest =>
    match splitOnSlash rest with
    | [] => [[c]]
    | s :: ss => if c = '/' then [] :: s :: ss else (c :: s) :: ss

/-- One step of POSIX path normalization over a reversed segment stack: empty
and `.` segments are dropped, `..` pops the previous normal segment (and is
kept when there is nothing to pop, as in a relative path), and any other
segment is pushed. -/
def normStep (acc : List (List Char)) (seg : List Char) : List (List Char) :=
  if seg = [] ∨ seg = ['.'] then acc
  else if seg = ['.', '.'] then
    match acc with
    | [] => [seg]
    | top :: rest => if top = ['.', '.'] then seg :: acc else rest
  else seg :: acc

/-- POSIX normalization of a segment list. -/
def normSegments (segs : List (List Char)) : List (List Char) :=
  (segs.foldl normStep []).reverse

/-- `path.join` (POSIX): concatenate the parts with `/` and normalize; the
result is represented as its list of path segments. -/
def pathJoin (parts : List (List Char)) : List (List Char) :=
  normSegments ((parts.map splitOnSlash).flatten)

/-- `buildMediaPath` from src/media.ts:
`path.join(MEDIA_DIR, groupFolder, messageId + '-' + sanitizeFilename(filename))`. -/
def buildMediaPath (mediaDir groupFolder messageId filename : List Char) :
    List (List Char) :=
  pathJoin [mediaDir, groupFolder, messageId ++ '-' :: sanitizeFilename filename]

/-! ## The Group Queue (spec sections 3, 4.1 and 5;
docs/status-file-plan.md change 2, docs/remove-containers-plan.md change 3).
`src/group-queue.ts` is not in the source tree, so the scheduler core is
modelled from the specification as a small-step transition system whose steps
are the serialized critical sections of the decision core: enqueue, one
dispatch of one group, settlement of one active handle, and cancel.  Every
step appends the externally observable events it produces to a trace. -/

abbrev GroupKey := String
abbrev TaskId := Nat

inductive WorkKind where
  | message
  | scheduledTask
deriving DecidableEq

/-- Modelled from the spec: a WorkItem (spec section 3); `enqueuedAt` is kept
implicitly by the position in the pending queue and in the trace. -/
structure WorkItem where
  taskId : TaskId
  payload : String
  kind : WorkKind
deriving DecidableEq

/-- Modelled from the spec: the queue's view of one running execution —
identity plus the cooperative cancellation control (an `AbortController`,
docs/remove-containers-plan.md change 3), whose requested state is a flag. -/
structure ExecutionHandle where
  taskId : TaskId
  cancelRequested : Bool
deriving DecidableEq

/-- Modelled from the spec: the per-group record `{pending, active}`
(spec section 3, GroupState). -/
structure GroupState where
  pending : List WorkItem
  active : Option ExecutionHandle
deriving DecidableEq

def GroupState.empty : GroupState := { pending := [], active := none }

/-- Modelled from the spec: the shared mutable scheduler state — the groups
map, `globalActiveCount`, and the task-id source (spec section 5). -/
structure QueueState where
  groups : List (GroupKey × GroupState)
  globalActiveCount : Nat
  nextTaskId : TaskId
deriving DecidableEq

def initQueue : QueueState := { groups := [], globalActiveCount := 0, nextTaskId := 0 }

/-- First-match lookup in the groups association list (a `Map`). -/
def findGroup : List (GroupKey × GroupState) → GroupKey → Option GroupState
  | [], _ => none
  | (k, gs) :: rest, g => if k = g then some gs else findGroup rest g

/-- Group records are created lazily on first touch (spec section 3). -/
def getGroup (l : List (GroupKey × GroupState)) (g : GroupKey) : GroupState :=
  (findGroup l g).getD GroupState.empty

/-- Replace the record of a key, or append it when absent. -/
def setGroup : List (GroupKey × GroupState) → GroupKey → GroupState →
    List (GroupKey × GroupState)
  | [], g, gs => [(g, gs)]
  | (k, old) :: rest, g, gs =>
      if k = g then (g, gs) :: rest else (k, old) :: setGroup rest g gs

def activeBit (gs : GroupState) : Nat := if gs.active.isSome then 1 else 0

/-- The number of currently-active execution handles across all groups. -/
def countActive (l : List (GroupKey × GroupState)) : Nat :=
  (l.filter (fun p => p.2.active.isSome)).length

/-- The keys of all groups holding an active handle — the `activeGroups`
snapshot delivered with each notification. -/
def activeGroupKeys (s : QueueState) : List GroupKey :=
  (s.groups.filter (fun p => p.2.active.isSome)).map Prod.fst

/-- The externally observable events of the scheduler: work enqueued, a
dispatch (an execution begins), a settlement (success, failure, cancellation
or timeout), removal of a pending item by cancel, and the active-count-changed
notification with its `(count, activeGroups)` payload. -/
inductive QEvent where
  | enq (g : GroupKey) (t : TaskId)
  | start (g : GroupKey) (t : TaskId)
  | settle (g : GroupKey) (t : TaskId) (status : SettleStatus)
  | cancelRm (g : GroupKey) (t : TaskId)
  | notification (count : Nat) (activeGroups : List GroupKey)
deriving DecidableEq

/-- Modelled from the spec: `enqueue(groupKey, workItem)` appends to the
group's pending list in FIFO order and draws a fresh task id
(spec section 4.1). -/
def enqueueOp (s : QueueState) (g : GroupKey) (payload : String) (kind : WorkKind) :
    QueueState :=
  let gs := getGroup s.groups g
  { s with
    groups := setGroup s.groups g
      ({ gs with pending := gs.pending ++ [⟨s.nextTaskId, payload, kind⟩] }),
    nextTaskId := s.nextTaskId + 1 }

/-- Modelled from the spec: one dispatch — pop the head of `pending`, create an
`ExecutionHandle`, set `active`, increment `globalActiveCount`
(spec section 4.1, dispatch algorithm). -/
def dispatchOp (s : QueueState) (g : GroupKey) (rest : List WorkItem) (t : TaskId) :
    QueueState :=
  { s with
    groups := setGroup s.groups g ({ pending := rest, active := some ⟨t, false⟩ }),
    globalActiveCount := s.globalActiveCount + 1 }

/-- Modelled from the spec: settlement of the active handle — clear `active`,
decrement `globalActiveCount` (spec section 4.1). -/
def settleOp (s : QueueState) (g : GroupKey) : QueueState :=
  let gs := getGroup s.groups g
  { s with
    groups := setGroup s.groups g ({ gs with active := none }),
    globalActiveCount := s.globalActiveCount - 1 }

inductive CancelResult where
  | found
  | notFound
deriving DecidableEq

/-- Modelled from the spec: `cancel(groupKey, taskId)` — remove a matching
pending item; signal a matching active handle cooperatively (the handle stays
active until the runner reports, spec section 5); otherwise report not-found
without touching anything (spec section 4.1). -/
def cancelOp (s : QueueState) (g : GroupKey) (t : TaskId) :
    QueueState × CancelResult × List QEvent :=
  let gs := getGroup s.groups g
  if t ∈ gs.pending.map WorkItem.taskId then
    let gs' := { gs with pending := gs.pending.filter (fun it => decide (it.taskId ≠ t)) }
    ({ s with groups := setGroup s.groups g gs' },
     CancelResult.found, [QEvent.cancelRm g t])
  else
    match gs.active with
    | some h =>
        if h.taskId = t then
          let gs' := { gs with active := some { h with cancelRequested := true } }
          ({ s with groups := setGroup s.groups g gs' },
           CancelResult.found, [])
        else (s, CancelResult.notFound, [])
    | none => (s, CancelResult.notFound, [])

/-- Modelled from the spec: the atomic steps of the serialized decision core.
Dispatch and settlement each emit their active-count-changed notification
synchronously, carrying the new count and the active-group snapshot of the
post-state (spec section 4.1, observable side effects).  Dispatch of a group
requires a non-empty pending list, no active handle for that group, and a free
global slot. -/
inductive Step (MAX : Nat) : QueueState → List QEvent → QueueState → Prop where
  | enqueue (s : QueueState) (g : GroupKey) (payload : String) (kind : WorkKind) :
      Step MAX s [QEvent.enq g s.nextTaskId] (enqueueOp s g payload kind)
  | dispatch (s : QueueState) (g : GroupKey) (item : WorkItem) (rest : List WorkItem)
      (hp : (getGroup s.groups g).pending = item :: rest)
      (ha : (getGroup s.groups g).active = none)
      (hc : s.globalActiveCount < MAX) :
      Step MAX s
        [QEvent.start g item.taskId,
         QEvent.notification (dispatchOp s g rest item.taskId).globalActiveCount
           (activeGroupKeys (dispatchOp s g rest item.taskId))]
        (dispatchOp s g rest item.taskId)
  | settleStep (s : QueueState) (g : GroupKey) (h : ExecutionHandle)
      (status : SettleStatus)
      (ha : (getGroup s.groups g).active = some h) :
      Step MAX s
        [QEvent.settle g h.taskId status,
         QEvent.notification (settleOp s g).globalActiveCount
           (activeGroupKeys (settleOp s g))]
        (settleOp s g)
  | cancel (s : QueueState) (g : GroupKey) (t : TaskId) :
      Step MAX s (cancelOp s g t).2.2 (cancelOp s g t).1

/-- The states and traces reachable from the fresh queue. -/
inductive Reachable (MAX : Nat) : QueueState → List QEvent → Prop where
  | init : Reachable MAX initQueue []
  | step {s : QueueState} {tr evs : List QEvent} {s' : QueueState} :
      Reachable MAX s tr → Step MAX s evs s' → Reachable MAX s' (tr ++ evs)

/-! Trace projections. -/

/-- Task ids enqueued for group `g`, in enqueue order. -/
def enqs (g : GroupKey) (tr : List QEvent) : List TaskId :=
  tr.filterMap (fun e => match e with
    | QEvent.enq g' t => if g' = g then some t else none
    | _ => none)

/-- Task ids whose execution began for group `g`, in dispatch order. -/
def starts (g : GroupKey) (tr : List QEvent) : List TaskId :=
  tr.filterMap (fun e => match e with
    | QEvent.start g' t => if g' = g then some t else none
    | _ => none)

/-- Task ids settled for group `g`. -/
def settles (g : GroupKey) (tr : List QEvent) : List TaskId :=
  tr.filterMap (fun e => match e with
    | QEvent.settle g' t _ => if g' = g then some t else none
    | _ => none)

/-- Task ids removed while pending by cancel for group `g`. -/
def cancels (g : GroupKey) (tr : List QEvent) : List TaskId :=
  tr.filterMap (fun e => match e with
    | QEvent.cancelRm g' t => if g' = g then some t else none
    | _ => none)

/-- Every task id mentioned by any event of the trace. -/
def allIds (tr : List QEvent) : List TaskId :=
  tr.filterMap (fun e => match e with
    | QEvent.enq _ t => some t
    | QEvent.start _ t => some t
    | QEvent.settle _ t _ => some t
    | QEvent.cancelRm _ t => some t
    | QEvent.notification _ _ => none)

/-- Every enqueued task id, across all groups, in enqueue order. -/
def allEnqs (tr : List QEvent) : List TaskId :=
  tr.filterMap (fun e => match e with
    | QEvent.enq _ t => some t
    | _ => none)

/-- The tasks of group `g` that are enqueued but neither started nor removed —
what the pending queue must hold, in enqueue order. -/
def traceQueue (g : GroupKey) (tr : List QEvent) : List TaskId :=
  (enqs g tr).filter (fun t => decide (t ∉ starts g tr) && decide (t ∉ cancels g tr))

/-- The tasks of group `g` that began executing and have not settled — the
executions of `g` in flight at the end of the trace. -/
def openTasks (g : GroupKey) (tr : List QEvent) : List TaskId :=
  (starts g tr).filter (fun t => decide (t ∉ settles g tr))

def pendingIds (s : QueueState) (g : GroupKey) : List TaskId :=
  (getGroup s.groups g).pending.map WorkItem.taskId

def activeIds (s : QueueState) (g : GroupKey) : List TaskId :=
  match (getGroup s.groups g).active with
  | some h => [h.taskId]
  | none => []

/-- A task is settled within (a prefix of) a trace: the runner reported a
terminal status for it, or it was destroyed while pending by a cancel (the
WorkItem is destroyed on completion, cancellation or timeout, spec section 3). -/
def SettledIn (A : List QEvent) (g : GroupKey) (t : TaskId) : Prop :=
  (∃ st, QEvent.settle g t st ∈ A) ∨ QEvent.cancelRm g t ∈ A

/-- The per-group FIFO ordering property of a trace: whenever an execution of
`tb` begins, every task `ta` of the same group that was enqueued earlier than
`tb` has already fully settled. -/
def OrderedStarts (tr : List QEvent) : Prop :=
  ∀ g ta tb A B, tr = A ++ QEvent.start g tb :: B →
    (∃ A1 A2, A = A1 ++ QEvent.enq g ta :: A2 ∧ QEvent.enq g tb ∈ A2) →
    SettledIn A g ta

/-- The notification events of an event batch. -/
def notifications (evs : List QEvent) : List QEvent :=
  evs.filter (fun e => match e with
    | QEvent.notification _ _ => true
    | _ => false)

/-- The inductive invariant tying a reachable state to its trace. -/
structure QInv (MAX : Nat) (s : QueueState) (tr : List QEvent) : Prop where
  fresh : ∀ t ∈ allIds tr, t < s.nextTaskId
  enqNodup : (allEnqs tr).Nodup
  startsLe : ∀ g, ∀ t ∈ starts g tr, t ∈ enqs g tr
  cancelsLe : ∀ g, ∀ t ∈ cancels g tr, t ∈ enqs g tr
  settlesLe : ∀ g, ∀ t ∈ settles g tr, t ∈ starts g tr
  pendingCorr : ∀ g, pendingIds s g = traceQueue g tr
  activeCorr : ∀ g, activeIds s g = openTasks g tr
  countEq : s.globalActiveCount = countActive s.groups
  countLe : s.globalActiveCount ≤ MAX
  ordered : OrderedStarts tr

/-! ## Lemmas: the groups association list -/

@[simp] theorem getGroup_nil (g : GroupKey) : getGroup [] g = GroupState.empty := rfl

@[simp] theorem getGroup_cons (k : GroupKey) (kgs : GroupState)
    (l : List (GroupKey × GroupState)) (g : GroupKey) :
    getGroup ((k, kgs) :: l) g = if k = g then kgs else getGroup l g := by
  by_cases h : k = g <;> simp [getGroup, findGroup, h]

@[simp] theorem setGroup_nil (g : GroupKey) (gs : GroupState) :
    setGroup [] g gs = [(g, gs)] := rfl

@[simp] theorem setGroup_cons (k : GroupKey) (old : GroupState)
    (l : List (GroupKey × GroupState)) (g : GroupKey) (gs : GroupState) :
    setGroup ((k, old) :: l) g gs =
      if k = g then (g, gs) :: l else (k, old) :: setGroup l g gs := rfl

theorem getGroup_setGroup_same (l : List (GroupKey × GroupState)) (g : GroupKey)
    (gs : GroupState) : getGroup (setGroup l g gs) g = gs := by
  induction l with
  | nil => simp
  | cons hd rest ih =>
    obtain ⟨k, kgs⟩ := hd
    by_cases hk : k = g
    · simp [hk]
    · simp [hk, ih]

theorem getGroup_setGroup_ne (l : List (GroupKey × GroupState)) (g g' : GroupKey)
    (gs : GroupState) (hne : g' ≠ g) :
    getGroup (setGroup l g gs) g' = getGroup l g' := by
  induction l with
  | nil => simp [Ne.symm hne]
  | cons hd rest ih =>
    obtain ⟨k, kgs⟩ := hd
    by_cases hk : k = g
    · subst hk
      simp [Ne.symm hne]
    · simp [hk, ih]

theorem countActive_cons (k : GroupKey) (gs : GroupState)
    (l : List (GroupKey × GroupState)) :
    countActive ((k, gs) :: l) = activeBit gs + countActive l := by
  by_cases h : gs.active.isSome <;>
    simp [countActive, activeBit, List.filter_cons, h] <;> omega

theorem countActive_setGroup (l : List (GroupKey × GroupState)) (g : GroupKey)
    (gs : GroupState) :
    countActive (setGroup l g gs) + activeBit (getGroup l g) =
      countActive l + activeBit gs := by
  induction l with
  | nil =>
    by_cases h : gs.active.isSome <;>
      simp [countActive, GroupState.empty, activeBit, List.filter_cons, h]
  | cons hd rest ih =>
    obtain ⟨k, kgs⟩ := hd
    by_cases hk : k = g
    · subst hk
      simp [countActive_cons]
      omega
    · simp [hk, countActive_cons]
      omega

theorem countActive_pos (l : List (GroupKey × GroupState)) (g : GroupKey)
    (h : ExecutionHandle) (hf : (getGroup l g).active = some h) :
    0 < countActive l := by
  induction l with
  | nil => simp [GroupState.empty] at hf
  | cons hd rest ih =>
    obtain ⟨k, kgs⟩ := hd
    by_cases hk : k = g
    · have hx : kgs.active = some h := by simpa [hk] using hf
      rw [countActive_cons]
      simp [activeBit, hx]
    · rw [countActive_cons]
      have hx := ih (by simpa [hk] using hf)
      omega

/-! ## Lemmas: trace projections -/

theorem enqs_append (g : GroupKey) (l1 l2 : List QEvent) :
    enqs g (l1 ++ l2) = enqs g l1 ++ enqs g l2 :=
  List.filterMap_append l1 l2 _

theorem starts_append (g : GroupKey) (l1 l2 : List QEvent) :
    starts g (l1 ++ l2) = starts g l1 ++ starts g l2 :=
  List.filterMap_append l1 l2 _

theorem settles_append (g : GroupKey) (l1 l2 : List QEvent) :
    settles g (l1 ++ l2) = settles g l1 ++ settles g l2 :=
  List.filterMap_append l1 l2 _

theorem cancels_append (g : GroupKey) (l1 l2 : List QEvent) :
    cancels g (l1 ++ l2) = cancels g l1 ++ cancels g l2 :=
  List.filterMap_append l1 l2 _

theorem allIds_append (l1 l2 : List QEvent) :
    allIds (l1 ++ l2) = allIds l1 ++ allIds l2 :=
  List.filterMap_append l1 l2 _

theorem allEnqs_append (l1 l2 : List QEvent) :
    allEnqs (l1 ++ l2) = allEnqs l1 ++ allEnqs l2 :=
  List.filterMap_append l1 l2 _

@[simp] theorem enqs_nil (g : GroupKey) : enqs g [] = [] := rfl

@[simp] theorem starts_nil (g : GroupKey) : starts g [] = [] := rfl

@[simp] theorem settles_nil (g : GroupKey) : settles g [] = [] := rfl

@[simp] theorem cancels_nil (g : GroupKey) : cancels g [] = [] := rfl

@[simp] theorem allIds_nil : allIds [] = [] := rfl

@[simp] theorem allEnqs_nil : allEnqs [] = [] := rfl

@[simp] theorem enqs_cons_enq (g g' : GroupKey) (t : TaskId) (tr : List QEvent) :
    enqs g (QEvent.enq g' t :: tr) =
      if g' = g then t :: enqs g tr else enqs g tr := by
  by_cases h : g' = g <;> simp [enqs, List.filterMap_cons, h]

@[simp] theorem enqs_cons_start (g g' : GroupKey) (t : TaskId) (tr : List QEvent) :
    enqs g (QEvent.start g' t :: tr) = enqs g tr := by
  simp [enqs, List.filterMap_cons]

@[simp] theorem enqs_cons_settle (g g' : GroupKey) (t : TaskId) (st : SettleStatus)
    (tr : List QEvent) : enqs g (QEvent.settle g' t st :: tr) = enqs g tr := by
  simp [enqs, List.filterMap_cons]

@[simp] theorem enqs_cons_cancelRm (g g' : GroupKey) (t : TaskId) (tr : List QEvent) :
    enqs g (QEvent.cancelRm g' t :: tr) = enqs g tr := by
  simp [enqs, List.filterMap_cons]

@[simp] theorem enqs_cons_notification (g : GroupKey) (c : Nat) (ks : List GroupKey)
    (tr : List QEvent) : enqs g (QEvent.notification c ks :: tr) = enqs g tr := by
  simp [enqs, List.filterMap_cons]

@[simp] theorem starts_cons_enq (g g' : GroupKey) (t : TaskId) (tr : List QEvent) :
    starts g (QEvent.enq g' t :: tr) = starts g tr := by
  simp [starts, List.filterMap_cons]

@[simp] theorem starts_cons_start (g g' : GroupKey) (t : TaskId) (tr : List QEvent) :
    starts g (QEvent.start g' t :: tr) =
      if g' = g then t :: starts g tr else starts g tr := by
  by_cases h : g' = g <;> simp [starts, List.filterMap_cons, h]

@[simp] theorem starts_cons_settle (g g' : GroupKey) (t : TaskId) (st : SettleStatus)
    (tr : List QEvent) : starts g (QEvent.settle g' t st :: tr) = starts g tr := by
  simp [starts, List.filterMap_cons]

@[simp] theorem starts_cons_cancelRm (g g' : GroupKey) (t : TaskId) (tr : List QEvent) :
    starts g (QEvent.cancelRm g' t :: tr) = starts g tr := by
  simp [starts, List.filterMap_cons]

@[simp] theorem starts_cons_notification (g : GroupKey) (c : Nat) (ks : List GroupKey)
    (tr : List QEvent) : starts g (QEvent.notification c ks :: tr) = starts g tr := by
  simp [starts, List.filterMap_cons]

@[simp] theorem settles_cons_enq (g g' : GroupKey) (t : TaskId) (tr : List QEvent) :
    settles g (QEvent.enq g' t :: tr) = settles g tr := by
  simp [settles, List.filterMap_cons]

@[simp] theorem settles_cons_start (g g' : GroupKey) (t : TaskId) (tr : List QEvent) :
    settles g (QEvent.start g' t :: tr) = settles g tr := by
  simp [settles, List.filterMap_cons]

@[simp] theorem settles_cons_settle (g g' : GroupKey) (t : TaskId) (st : SettleStatus)
    (tr : List QEvent) :
    settles g (QEvent.settle g' t st :: tr) =
      if g' = g then t :: settles g tr else settles g tr := by
  by_cases h : g' = g <;> simp [settles, List.filterMap_cons, h]

@[simp] theorem settles_cons_cancelRm (g g' : GroupKey) (t : TaskId) (tr : List QEvent) :
    settles g (QEvent.cancelRm g' t :: tr) = settles g tr := by
  simp [settles, List.filterMap_cons]

@[simp] theorem settles_cons_notification (g : GroupKey) (c : Nat) (ks : List GroupKey)
    (tr : List QEvent) : settles g (QEvent.notification c ks :: tr) = settles g tr := by
  simp [settles, List.filterMap_cons]

@[simp] theorem cancels_cons_enq (g g' : GroupKey) (t : TaskId) (tr : List QEvent) :
    cancels g (QEvent.enq g' t :: tr) = cancels g tr := by
  simp [cancels, List.filterMap_cons]

@[simp] theorem cancels_cons_start (g g' : GroupKey) (t : TaskId) (tr : List QEvent) :
    cancels g (QEvent.start g' t :: tr) = cancels g tr := by
  simp [cancels, List.filterMap_cons]

@[simp] theorem cancels_cons_settle (g g' : GroupKey) (t : TaskId) (st : SettleStatus)
    (tr : List QEvent) : cancels g (QEvent.settle g' t st :: tr) = cancels g tr := by
  simp [cancels, List.filterMap_cons]

@[simp] theorem cancels_cons_cancelRm (g g' : GroupKey) (t : TaskId) (tr : List QEvent) :
    cancels g (QEvent.cancelRm g' t :: tr) =
      if g' = g then t :: cancels g tr else cancels g tr := by
  by_cases h : g' = g <;> simp [cancels, List.filterMap_cons, h]

@[simp] theorem cancels_cons_notification (g : GroupKey) (c : Nat) (ks : List GroupKey)
    (tr : List QEvent) : cancels g (QEvent.notification c ks :: tr) = cancels g tr := by
  simp [cancels, List.filterMap_cons]

@[simp] theorem allIds_cons_enq (g : GroupKey) (t : TaskId) (tr : List QEvent) :
    allIds (QEvent.enq g t :: tr) = t :: allIds tr := by
  simp [allIds, List.filterMap_cons]

@[simp] theorem allIds_cons_start (g : GroupKey) (t : TaskId) (tr : List QEvent) :
    allIds (QEvent.start g t :: tr) = t :: allIds tr := by
  simp [allIds, List.filterMap_cons]

@[simp] theorem allIds_cons_settle (g : GroupKey) (t : TaskId) (st : SettleStatus)
    (tr : List QEvent) : allIds (QEvent.settle g t st :: tr) = t :: allIds tr := by
  simp [allIds, List.filterMap_cons]

@[simp] theorem allIds_cons_cancelRm (g : GroupKey) (t : TaskId) (tr : List QEvent) :
    allIds (QEvent.cancelRm g t :: tr) = t :: allIds tr := by
  simp [allIds, List.filterMap_cons]

@[simp] theorem allIds_cons_notification (c : Nat) (ks : List GroupKey)
    (tr : List QEvent) : allIds (QEvent.notification c ks :: tr) = allIds tr := by
  simp [allIds, List.filterMap_cons]

@[simp] theorem allEnqs_cons_enq (g : GroupKey) (t : TaskId) (tr : List QEvent) :
    allEnqs (QEvent.enq g t :: tr) = t :: allEnqs tr := by
  simp [allEnqs, List.filterMap_cons]

@[simp] theorem allEnqs_cons_start (g : GroupKey) (t : TaskId) (tr : List QEvent) :
    allEnqs (QEvent.start g t :: tr) = allEnqs tr := by
  simp [allEnqs, List.filterMap_cons]

@[simp] theorem allEnqs_cons_settle (g : GroupKey) (t : TaskId) (st : SettleStatus)
    (tr : List QEvent) : allEnqs (QEvent.settle g t st :: tr) = allEnqs tr := by
  simp [allEnqs, List.filterMap_cons]

@[simp] theorem allEnqs_cons_cancelRm (g : GroupKey) (t : TaskId) (tr : List QEvent) :
    allEnqs (QEvent.cancelRm g t :: tr) = allEnqs tr := by
  simp [allEnqs, List.filterMap_cons]

@[simp] theorem allEnqs_cons_notification (c : Nat) (ks : List GroupKey)
    (tr : List QEvent) : allEnqs (QEvent.notification c ks :: tr) = allEnqs tr := by
  simp [allEnqs, List.filterMap_cons]

/-! ## Lemmas: membership in the projections -/

theorem mem_enqs_iff (g : GroupKey) (t : TaskId) (tr : List QEvent) :
    t ∈ enqs g tr ↔ QEvent.enq g t ∈ tr := by
  constructor
  · intro h
    rcases List.mem_filterMap.mp h with ⟨e, he, hf⟩
    cases e with
    | enq g' t' =>
      by_cases hg : g' = g
      · simp [hg] at hf
        subst hg
        subst hf
        exact he
      · simp [hg] at hf
    | start g' t' => simp at hf
    | settle g' t' st => simp at hf
    | cancelRm g' t' => simp at hf
    | notification c ks => simp at hf
  · intro h
    exact List.mem_filterMap.mpr ⟨QEvent.enq g t, h, by simp⟩

theorem mem_starts_iff (g : GroupKey) (t : TaskId) (tr : List QEvent) :
    t ∈ starts g tr ↔ QEvent.start g t ∈ tr := by
  constructor
  · intro h
    rcases List.mem_filterMap.mp h with ⟨e, he, hf⟩
    cases e with
    | start g' t' =>
      by_cases hg : g' = g
      · simp [hg] at hf
        subst hg
        subst hf
        exact he
      · simp [hg] at hf
    | enq g' t' => simp at hf
    | settle g' t' st => simp at hf
    | cancelRm g' t' => simp at hf
    | notification c ks => simp at hf
  · intro h
    exact List.mem_filterMap.mpr ⟨QEvent.start g t, h, by simp⟩

theorem mem_settles_iff (g : GroupKey) (t : TaskId) (tr : List QEvent) :
    t ∈ settles g tr ↔ ∃ st, QEvent.settle g t st ∈ tr := by
  constructor
  · intro h
    rcases List.mem_filterMap.mp h with ⟨e, he, hf⟩
    cases e with
    | settle g' t' st =>
      by_cases hg : g' = g
      · simp [hg] at hf
        subst hg
        subst hf
        exact ⟨st, he⟩
      · simp [hg] at hf
    | enq g' t' => simp at hf
    | start g' t' => simp at hf
    | cancelRm g' t' => simp at hf
    | notification c ks => simp at hf
  · rintro ⟨st, h⟩
    exact List.mem_filterMap.mpr ⟨QEvent.settle g t st, h, by simp⟩

theorem mem_cancels_iff (g : GroupKey) (t : TaskId) (tr : List QEvent) :
    t ∈ cancels g tr ↔ QEvent.cancelRm g t ∈ tr := by
  constructor
  · intro h
    rcases List.mem_filterMap.mp h with ⟨e, he, hf⟩
    cases e with
    | cancelRm g' t' =>
      by_cases hg : g' = g
      · simp [hg] at hf
        subst hg
        subst hf
        exact he
      · simp [hg] at hf
    | enq g' t' => simp at hf
    | start g' t' => simp at hf
    | settle g' t' st => simp at hf
    | notification c ks => simp at hf
  · intro h
    exact List.mem_filterMap.mpr ⟨QEvent.cancelRm g t, h, by simp⟩

theorem mem_allIds_of_enqs {g : GroupKey} {t : TaskId} {tr : List QEvent}
    (h : t ∈ enqs g tr) : t ∈ allIds tr :=
  List.mem_filterMap.mpr ⟨QEvent.enq g t, (mem_enqs_iff g t tr).mp h, by simp⟩

theorem mem_allIds_of_starts {g : GroupKey} {t : TaskId} {tr : List QEvent}
    (h : t ∈ starts g tr) : t ∈ allIds tr :=
  List.mem_filterMap.mpr ⟨QEvent.start g t, (mem_starts_iff g t tr).mp h, by simp⟩

theorem enqs_sublist_allEnqs (g : GroupKey) (tr : List QEvent) :
    (enqs g tr).Sublist (allEnqs tr) := by
  induction tr with
  | nil => simp
  | cons e tr ih =>
    cases e with
    | enq g' t =>
      by_cases hg : g' = g
      · simpa [hg] using ih.cons₂ t
      · simpa [hg] using ih.cons t
    | start g' t => simpa using ih
    | settle g' t st => simpa using ih
    | cancelRm g' t => simpa using ih
    | notification c ks => simpa using ih

theorem enqs_nodup {tr : List QEvent} (h : (allEnqs tr).Nodup) (g : GroupKey) :
    (enqs g tr).Nodup :=
  h.sublist (enqs_sublist_allEnqs g tr)

theorem traceQueue_subset_enqs (g : GroupKey) (tr : List QEvent) :
    ∀ t ∈ traceQueue g tr, t ∈ enqs g tr :=
  fun _ ht => (List.mem_filter.mp ht).1

theorem openTasks_subset_starts (g : GroupKey) (tr : List QEvent) :
    ∀ t ∈ openTasks g tr, t ∈ starts g tr :=
  fun _ ht => (List.mem_filter.mp ht).1

theorem not_mem_starts_of_traceQueue {g : GroupKey} {tr : List QEvent} {t : TaskId}
    (h : t ∈ traceQueue g tr) : t ∉ starts g tr := by
  have := (List.mem_filter.mp h).2
  simp at this
  exact this.1

theorem not_mem_cancels_of_traceQueue {g : GroupKey} {tr : List QEvent} {t : TaskId}
    (h : t ∈ traceQueue g tr) : t ∉ cancels g tr := by
  have := (List.mem_filter.mp h).2
  simp at this
  exact this.2

theorem not_mem_settles_of_openTasks {g : GroupKey} {tr : List QEvent} {t : TaskId}
    (h : t ∈ openTasks g tr) : t ∉ settles g tr := by
  have := (List.mem_filter.mp h).2
  simpa using this

/-! ## Lemmas: filters that exclude one freshly recorded id -/

theorem filter_not_mem_snoc_left (l xs : List TaskId) (b : TaskId)
    (keep : TaskId → Bool) :
    l.filter (fun t => decide (t ∉ xs ++ [b]) && keep t) =
      (l.filter (fun t => decide (t ∉ xs) && keep t)).filter
        (fun t => decide (t ≠ b)) := by
  have h1 : ∀ t ∈ l, (decide (t ∉ xs ++ [b]) && keep t)
      = (decide (t ≠ b) && (decide (t ∉ xs) && keep t)) := by
    intro t _
    by_cases hx : t ∈ xs <;> by_cases hb : t = b <;> cases hk : keep t <;>
      simp [hx, hb, hk, List.mem_append]
  rw [List.filter_congr h1, ← List.filter_filter]

theorem filter_not_mem_snoc_right (l xs : List TaskId) (b : TaskId)
    (keep : TaskId → Bool) :
    l.filter (fun t => keep t && decide (t ∉ xs ++ [b])) =
      (l.filter (fun t => keep t && decide (t ∉ xs))).filter
        (fun t => decide (t ≠ b)) := by
  have h1 : ∀ t ∈ l, (keep t && decide (t ∉ xs ++ [b]))
      = (decide (t ≠ b) && (keep t && decide (t ∉ xs))) := by
    intro t _
    by_cases hx : t ∈ xs <;> by_cases hb : t = b <;> cases hk : keep t <;>
      simp [hx, hb, hk, List.mem_append]
  rw [List.filter_congr h1, ← List.filter_filter]

theorem filter_not_mem_snoc (l xs : List TaskId) (b : TaskId) :
    l.filter (fun t => decide (t ∉ xs ++ [b])) =
      (l.filter (fun t => decide (t ∉ xs))).filter (fun t => decide (t ≠ b)) := by
  have h1 : ∀ t ∈ l, (decide (t ∉ xs ++ [b]) : Bool)
      = (decide (t ≠ b) && decide (t ∉ xs)) := by
    intro t _
    by_cases hx : t ∈ xs <;> by_cases hb : t = b <;>
      simp [hx, hb, List.mem_append]
  rw [List.filter_congr h1, ← List.filter_filter]

theorem filter_ne_of_not_mem {l : List TaskId} {b : TaskId} (hb : b ∉ l) :
    l.filter (fun t => decide (t ≠ b)) = l := by
  rw [List.filter_eq_self]
  intro a ha
  simp
  intro h
  exact hb (h ▸ ha)

theorem mem_allIds_of_settles {g : GroupKey} {t : TaskId} {tr : List QEvent}
    (h : t ∈ settles g tr) : t ∈ allIds tr := by
  rcases (mem_settles_iff g t tr).mp h with ⟨st, hst⟩
  exact List.mem_filterMap.mpr ⟨QEvent.settle g t st, hst, by simp⟩

theorem mem_allIds_of_cancels {g : GroupKey} {t : TaskId} {tr : List QEvent}
    (h : t ∈ cancels g tr) : t ∈ allIds tr :=
  List.mem_filterMap.mpr ⟨QEvent.cancelRm g t, (mem_cancels_iff g t tr).mp h, by simp⟩

theorem allEnqs_sublist_allIds (tr : List QEvent) :
    (allEnqs tr).Sublist (allIds tr) := by
  induction tr with
  | nil => simp
  | cons e tr ih =>
    cases e with
    | enq g t => simpa using ih.cons₂ t
    | start g t => simpa using ih.cons t
    | settle g t st => simpa using ih.cons t
    | cancelRm g t => simpa using ih.cons t
    | notification c ks => simpa using ih

theorem map_taskId_filter' (l : List WorkItem) (t : TaskId) :
    (l.filter (fun it => !decide (it.taskId = t))).map WorkItem.taskId =
      (l.map WorkItem.taskId).filter (fun x => !decide (x = t)) := by
  induction l with
  | nil => rfl
  | cons a l ih =>
    by_cases h : a.taskId = t
    · rw [List.map_cons, List.filter_cons, List.filter_cons, if_neg (by simp [h]),
        if_neg (by simp [h])]
      exact ih
    · rw [List.map_cons, List.filter_cons, List.filter_cons, if_pos (by simp [h]),
        if_pos (by simp [h]), List.map_cons, ih]

theorem map_taskId_filter (l : List WorkItem) (t : TaskId) :
    (l.filter (fun it => decide (it.taskId ≠ t))).map WorkItem.taskId =
      (l.map WorkItem.taskId).filter (fun x => decide (x ≠ t)) := by
  induction l with
  | nil => rfl
  | cons a l ih =>
    by_cases h : a.taskId = t
    · rw [List.map_cons, List.filter_cons, List.filter_cons, if_neg (by simp [h]),
        if_neg (by simp [h])]
      exact ih
    · rw [List.map_cons, List.filter_cons, List.filter_cons, if_pos (by simp [h]),
        if_pos (by simp [h]), List.map_cons, ih]

/-! ## Lemmas: the per-group ordering property -/

theorem orderedStarts_nil : OrderedStarts [] := by
  intro g ta tb A B h _
  exact absurd h.symm (by simp)

theorem orderedStarts_append (tr evs : List QEvent) (hord : OrderedStarts tr)
    (hno : ∀ g t, QEvent.start g t ∉ evs) : OrderedStarts (tr ++ evs) := by
  intro g ta tb A B heq hseq
  rcases List.append_eq_append_iff.mp heq with ⟨a', h1, h2⟩ | ⟨c', h1, h2⟩
  · exact absurd (h2 ▸ List.mem_append_right a' (List.mem_cons_self _ _)) (hno g tb)
  · cases c' with
    | nil =>
      simp at h2
      exact absurd (h2 ▸ List.mem_cons_self _ _) (hno g tb)
    | cons x c'' =>
      simp only [List.cons_append] at h2
      obtain ⟨hx, hB⟩ := List.cons.inj h2
      rw [← hx] at h1
      exact hord g ta tb A c'' h1 hseq

theorem append_two_decomp (tr A B : List QEvent) (e1 e2 x : QEvent)
    (h : tr ++ [e1, e2] = A ++ x :: B) :
    (∃ B0, tr = A ++ x :: B0 ∧ B = B0 ++ [e1, e2]) ∨
    (A = tr ∧ x = e1 ∧ B = [e2]) ∨
    (A = tr ++ [e1] ∧ x = e2 ∧ B = []) := by
  rcases List.append_eq_append_iff.mp h with ⟨a', h1, h2⟩ | ⟨c', h1, h2⟩
  · cases a' with
    | nil =>
      rw [List.append_nil] at h1
      rw [List.nil_append] at h2
      obtain ⟨he, hB⟩ := List.cons.inj h2
      exact Or.inr (Or.inl ⟨h1, he.symm, hB.symm⟩)
    | cons y a'' =>
      cases a'' with
      | nil =>
        rw [List.cons_append, List.nil_append] at h2
        obtain ⟨hy, h3⟩ := List.cons.inj h2
        obtain ⟨hx2, hB⟩ := List.cons.inj h3
        refine Or.inr (Or.inr ⟨?_, hx2.symm, hB.symm⟩)
        rw [h1, ← hy]
      | cons z rest =>
        rw [List.cons_append, List.cons_append] at h2
        obtain ⟨-, h3⟩ := List.cons.inj h2
        obtain ⟨-, h4⟩ := List.cons.inj h3
        exact absurd h4.symm (by simp)
  · cases c' with
    | nil =>
      rw [List.append_nil] at h1
      rw [List.nil_append] at h2
      obtain ⟨he, hB⟩ := List.cons.inj h2
      exact Or.inr (Or.inl ⟨h1.symm, he, hB⟩)
    | cons y c'' =>
      rw [List.cons_append] at h2
      obtain ⟨hx, hB⟩ := List.cons.inj h2
      refine Or.inl ⟨c'', ?_, hB⟩
      rw [h1, ← hx]

theorem orderedStarts_snoc_start (tr : List QEvent) (g : GroupKey) (tb : TaskId)
    (ne : QEvent) (hne : ∀ g' t', ne ≠ QEvent.start g' t')
    (hord : OrderedStarts tr)
    (hnew : ∀ ta,
      (∃ A1 A2, tr = A1 ++ QEvent.enq g ta :: A2 ∧ QEvent.enq g tb ∈ A2) →
      SettledIn tr g ta) :
    OrderedStarts (tr ++ [QEvent.start g tb, ne]) := by
  intro g' ta tb' A B heq hseq
  rcases append_two_decomp tr A B (QEvent.start g tb) ne (QEvent.start g' tb') heq
    with ⟨B0, h1, h2⟩ | ⟨h1, h2, h3⟩ | ⟨h1, h2, h3⟩
  · exact hord g' ta tb' A B0 h1 hseq
  · obtain ⟨hg, ht⟩ := QEvent.start.inj h2
    subst hg
    subst ht
    subst h1
    exact hnew ta hseq
  · exact absurd h2.symm (hne g' tb')

/-! ## Preservation of the inductive invariant -/

@[simp] theorem enqueueOp_nextTaskId (s : QueueState) (g : GroupKey)
    (payload : String) (kind : WorkKind) :
    (enqueueOp s g payload kind).nextTaskId = s.nextTaskId + 1 := rfl

@[simp] theorem enqueueOp_count (s : QueueState) (g : GroupKey)
    (payload : String) (kind : WorkKind) :
    (enqueueOp s g payload kind).globalActiveCount = s.globalActiveCount := rfl

theorem enqueueOp_groups (s : QueueState) (g : GroupKey)
    (payload : String) (kind : WorkKind) :
    (enqueueOp s g payload kind).groups =
      setGroup s.groups g
        ({ pending := (getGroup s.groups g).pending ++
              [⟨s.nextTaskId, payload, kind⟩],
           active := (getGroup s.groups g).active }) := rfl

@[simp] theorem dispatchOp_nextTaskId (s : QueueState) (g : GroupKey)
    (rest : List WorkItem) (t : TaskId) :
    (dispatchOp s g rest t).nextTaskId = s.nextTaskId := rfl

@[simp] theorem dispatchOp_count (s : QueueState) (g : GroupKey)
    (rest : List WorkItem) (t : TaskId) :
    (dispatchOp s g rest t).globalActiveCount = s.globalActiveCount + 1 := rfl

theorem dispatchOp_groups (s : QueueState) (g : GroupKey)
    (rest : List WorkItem) (t : TaskId) :
    (dispatchOp s g rest t).groups =
      setGroup s.groups g ({ pending := rest, active := some ⟨t, false⟩ }) := rfl

@[simp] theorem settleOp_nextTaskId (s : QueueState) (g : GroupKey) :
    (settleOp s g).nextTaskId = s.nextTaskId := rfl

@[simp] theorem settleOp_count (s : QueueState) (g : GroupKey) :
    (settleOp s g).globalActiveCount = s.globalActiveCount - 1 := rfl

theorem settleOp_groups (s : QueueState) (g : GroupKey) :
    (settleOp s g).groups =
      setGroup s.groups g
        ({ pending := (getGroup s.groups g).pending, active := none }) := rfl

/-! ## Lemmas: how one event batch moves the trace projections -/

theorem traceQueue_congr (g : GroupKey) (tr tr' : List QEvent)
    (he : enqs g tr' = enqs g tr) (hs : starts g tr' = starts g tr)
    (hc : cancels g tr' = cancels g tr) : traceQueue g tr' = traceQueue g tr := by
  unfold traceQueue
  rw [he, hs, hc]

theorem openTasks_congr (g : GroupKey) (tr tr' : List QEvent)
    (hs : starts g tr' = starts g tr) (hd : settles g tr' = settles g tr) :
    openTasks g tr' = openTasks g tr := by
  unfold openTasks
  rw [hs, hd]

theorem traceQueue_snoc_enq (g : GroupKey) (tr : List QEvent) (t0 : TaskId)
    (h1 : t0 ∉ starts g tr) (h2 : t0 ∉ cancels g tr) :
    traceQueue g (tr ++ [QEvent.enq g t0]) = traceQueue g tr ++ [t0] := by
  unfold traceQueue
  rw [enqs_append, starts_append, cancels_append]
  simp only [enqs_cons_enq, enqs_nil, starts_cons_enq, starts_nil,
    cancels_cons_enq, cancels_nil, if_pos rfl, List.append_nil]
  rw [List.filter_append]
  simp [List.filter_cons, h1, h2]

theorem traceQueue_snoc_start (g : GroupKey) (tr : List QEvent) (tb : TaskId)
    (c : Nat) (ks : List GroupKey) :
    traceQueue g (tr ++ [QEvent.start g tb, QEvent.notification c ks]) =
      (traceQueue g tr).filter (fun t => decide (t ≠ tb)) := by
  unfold traceQueue
  rw [enqs_append, starts_append, cancels_append]
  simp only [enqs_cons_start, enqs_cons_notification, enqs_nil,
    starts_cons_start, starts_cons_notification, starts_nil,
    cancels_cons_start, cancels_cons_notification, cancels_nil,
    if_pos rfl, List.append_nil]
  exact filter_not_mem_snoc_left (enqs g tr) (starts g tr) tb _

theorem openTasks_snoc_start (g : GroupKey) (tr : List QEvent) (tb : TaskId)
    (c : Nat) (ks : List GroupKey) (htb : tb ∉ settles g tr) :
    openTasks g (tr ++ [QEvent.start g tb, QEvent.notification c ks]) =
      openTasks g tr ++ [tb] := by
  unfold openTasks
  rw [starts_append, settles_append]
  simp only [starts_cons_start, starts_cons_notification, starts_nil,
    settles_cons_start, settles_cons_notification, settles_nil,
    if_pos rfl, List.append_nil]
  rw [List.filter_append]
  simp [List.filter_cons, htb]

theorem traceQueue_snoc_settle (g : GroupKey) (tr : List QEvent) (t0 : TaskId)
    (st : SettleStatus) (c : Nat) (ks : List GroupKey) :
    traceQueue g (tr ++ [QEvent.settle g t0 st, QEvent.notification c ks]) =
      traceQueue g tr := by
  refine traceQueue_congr g tr _ ?_ ?_ ?_ <;>
    first
      | (rw [enqs_append]; simp)
      | (rw [starts_append]; simp)
      | (rw [cancels_append]; simp)

theorem openTasks_snoc_settle (g : GroupKey) (tr : List QEvent) (t0 : TaskId)
    (st : SettleStatus) (c : Nat) (ks : List GroupKey) :
    openTasks g (tr ++ [QEvent.settle g t0 st, QEvent.notification c ks]) =
      (openTasks g tr).filter (fun t => decide (t ≠ t0)) := by
  unfold openTasks
  rw [starts_append, settles_append]
  simp only [starts_cons_settle, starts_cons_notification, starts_nil,
    settles_cons_settle, settles_cons_notification, settles_nil,
    if_pos rfl, List.append_nil]
  exact filter_not_mem_snoc (starts g tr) (settles g tr) t0

theorem traceQueue_snoc_cancelRm (g : GroupKey) (tr : List QEvent) (t0 : TaskId) :
    traceQueue g (tr ++ [QEvent.cancelRm g t0]) =
      (traceQueue g tr).filter (fun t => decide (t ≠ t0)) := by
  unfold traceQueue
  rw [enqs_append, starts_append, cancels_append]
  simp only [enqs_cons_cancelRm, enqs_nil, starts_cons_cancelRm, starts_nil,
    cancels_cons_cancelRm, cancels_nil, if_pos rfl, List.append_nil]
  exact filter_not_mem_snoc_right (enqs g tr) (cancels g tr) t0 _

theorem openTasks_snoc_cancelRm (g g0 : GroupKey) (tr : List QEvent) (t0 : TaskId) :
    openTasks g (tr ++ [QEvent.cancelRm g0 t0]) = openTasks g tr := by
  refine openTasks_congr g tr _ ?_ ?_ <;>
    first
      | (rw [starts_append]; simp)
      | (rw [settles_append]; simp)

/-! ## Preservation of the inductive invariant -/

theorem qinv_enqueue {MAX : Nat} {s : QueueState} {tr : List QEvent}
    (inv : QInv MAX s tr) (g : GroupKey) (payload : String) (kind : WorkKind) :
    QInv MAX (enqueueOp s g payload kind) (tr ++ [QEvent.enq g s.nextTaskId]) := by
  refine ⟨?_, ?_, ?_, ?_, ?_, ?_, ?_, ?_, ?_, ?_⟩
  · intro t ht
    rw [allIds_append] at ht
    simp at ht
    rw [enqueueOp_nextTaskId]
    rcases ht with ht | ht
    · exact Nat.lt_succ_of_lt (inv.fresh t ht)
    · subst ht
      exact Nat.lt_succ_self _
  · rw [allEnqs_append]
    have h1 : allEnqs [QEvent.enq g s.nextTaskId] = [s.nextTaskId] := rfl
    rw [h1, List.nodup_append]
    refine ⟨inv.enqNodup, List.nodup_singleton _, ?_⟩
    intro a ha hb
    rw [List.mem_singleton] at hb
    subst hb
    exact absurd (inv.fresh _ (List.Sublist.mem ha (allEnqs_sublist_allIds tr)))
      (lt_irrefl _)
  · intro g' t ht
    rw [starts_append] at ht
    simp at ht
    rw [enqs_append]
    exact List.mem_append_left _ (inv.startsLe g' t ht)
  · intro g' t ht
    rw [cancels_append] at ht
    simp at ht
    rw [enqs_append]
    exact List.mem_append_left _ (inv.cancelsLe g' t ht)
  · intro g' t ht
    rw [settles_append] at ht
    simp at ht
    rw [starts_append]
    exact List.mem_append_left _ (inv.settlesLe g' t ht)
  · intro g'
    by_cases hg : g' = g
    · subst hg
      have hp : pendingIds (enqueueOp s g' payload kind) g' =
          pendingIds s g' ++ [s.nextTaskId] := by
        simp [pendingIds, enqueueOp_groups, getGroup_setGroup_same]
      have hfresh1 : s.nextTaskId ∉ starts g' tr := fun hmem =>
        absurd (inv.fresh _ (mem_allIds_of_starts hmem)) (lt_irrefl _)
      have hfresh2 : s.nextTaskId ∉ cancels g' tr := fun hmem =>
        absurd (inv.fresh _ (mem_allIds_of_cancels hmem)) (lt_irrefl _)
      rw [hp, inv.pendingCorr g', traceQueue_snoc_enq g' tr s.nextTaskId hfresh1 hfresh2]
    · have hp : pendingIds (enqueueOp s g payload kind) g' = pendingIds s g' := by
        simp [pendingIds, enqueueOp_groups, getGroup_setGroup_ne _ _ _ _ hg]
      rw [hp, inv.pendingCorr g']
      refine (traceQueue_congr g' tr _ ?_ ?_ ?_).symm
      · rw [enqs_append]
        simp [Ne.symm hg]
      · rw [starts_append]
        simp
      · rw [cancels_append]
        simp
  · intro g'
    have hact : activeIds (enqueueOp s g payload kind) g' = activeIds s g' := by
      by_cases hg : g' = g
      · subst hg
        simp [activeIds, enqueueOp_groups, getGroup_setGroup_same]
      · simp [activeIds, enqueueOp_groups, getGroup_setGroup_ne _ _ _ _ hg]
    rw [hact, inv.activeCorr g']
    refine (openTasks_congr g' tr _ ?_ ?_).symm
    · rw [starts_append]
      simp
    · rw [settles_append]
      simp
  · have hkey := countActive_setGroup s.groups g
      ({ pending := (getGroup s.groups g).pending ++ [⟨s.nextTaskId, payload, kind⟩],
         active := (getGroup s.groups g).active })
    rw [enqueueOp_count, enqueueOp_groups]
    simp only [activeBit] at hkey
    have heq := inv.countEq
    omega
  · rw [enqueueOp_count]
    exact inv.countLe
  · refine orderedStarts_append tr _ inv.ordered ?_
    intro g' t
    simp

theorem qinv_dispatch {MAX : Nat} {s : QueueState} {tr : List QEvent}
    (inv : QInv MAX s tr) {g : GroupKey} {item : WorkItem} {rest : List WorkItem}
    (hp : (getGroup s.groups g).pending = item :: rest)
    (ha : (getGroup s.groups g).active = none)
    (hc : s.globalActiveCount < MAX) :
    QInv MAX (dispatchOp s g rest item.taskId)
      (tr ++ [QEvent.start g item.taskId,
        QEvent.notification (dispatchOp s g rest item.taskId).globalActiveCount
          (activeGroupKeys (dispatchOp s g rest item.taskId))]) := by
  have hpend : pendingIds s g = item.taskId :: rest.map WorkItem.taskId := by
    simp [pendingIds, hp]
  have htq : item.taskId ∈ traceQueue g tr := by
    rw [← inv.pendingCorr g, hpend]
    exact List.mem_cons_self _ _
  have htb_enq : item.taskId ∈ enqs g tr := traceQueue_subset_enqs g tr _ htq
  have htb_nostart : item.taskId ∉ starts g tr := not_mem_starts_of_traceQueue htq
  have htb_nosettle : item.taskId ∉ settles g tr := fun h =>
    htb_nostart (inv.settlesLe g _ h)
  have htb_lt : item.taskId < s.nextTaskId := inv.fresh _ (mem_allIds_of_enqs htb_enq)
  have hopen : openTasks g tr = [] := by
    rw [← inv.activeCorr g]
    simp [activeIds, ha]
  refine ⟨?_, ?_, ?_, ?_, ?_, ?_, ?_, ?_, ?_, ?_⟩
  · intro t ht
    rw [allIds_append] at ht
    simp at ht
    rw [dispatchOp_nextTaskId]
    rcases ht with ht | ht
    · exact inv.fresh t ht
    · subst ht
      exact htb_lt
  · rw [allEnqs_append]
    simpa using inv.enqNodup
  · intro g' t ht
    have he : enqs g' (tr ++ [QEvent.start g item.taskId, QEvent.notification
        (dispatchOp s g rest item.taskId).globalActiveCount
        (activeGroupKeys (dispatchOp s g rest item.taskId))]) = enqs g' tr := by
      rw [enqs_append]
      simp
    rw [he]
    rw [starts_append] at ht
    by_cases hg : g = g'
    · subst hg
      simp at ht
      rcases ht with ht | ht
      · exact inv.startsLe g t ht
      · subst ht
        exact htb_enq
    · simp [hg] at ht
      exact inv.startsLe g' t ht
  · intro g' t ht
    rw [cancels_append] at ht
    simp at ht
    have he : enqs g' (tr ++ [QEvent.start g item.taskId, QEvent.notification
        (dispatchOp s g rest item.taskId).globalActiveCount
        (activeGroupKeys (dispatchOp s g rest item.taskId))]) = enqs g' tr := by
      rw [enqs_append]
      simp
    rw [he]
    exact inv.cancelsLe g' t ht
  · intro g' t ht
    rw [settles_append] at ht
    simp at ht
    rw [starts_append]
    exact List.mem_append_left _ (inv.settlesLe g' t ht)
  · intro g'
    by_cases hg : g' = g
    · subst hg
      have hnodup : (item.taskId :: rest.map WorkItem.taskId).Nodup := by
        rw [← hpend, inv.pendingCorr g']
        exact (enqs_nodup inv.enqNodup g').filter _
      have htb_nin : item.taskId ∉ rest.map WorkItem.taskId :=
        (List.nodup_cons.mp hnodup).1
      have hpend2 : pendingIds (dispatchOp s g' rest item.taskId) g' =
          rest.map WorkItem.taskId := by
        simp [pendingIds, dispatchOp_groups, getGroup_setGroup_same]
      rw [hpend2, traceQueue_snoc_start g' tr item.taskId _ _,
        ← inv.pendingCorr g', hpend, List.filter_cons, if_neg (by simp),
        filter_ne_of_not_mem htb_nin]
    · have hpend2 : pendingIds (dispatchOp s g rest item.taskId) g' =
          pendingIds s g' := by
        simp [pendingIds, dispatchOp_groups, getGroup_setGroup_ne _ _ _ _ hg]
      rw [hpend2, inv.pendingCorr g']
      refine (traceQueue_congr g' tr _ ?_ ?_ ?_).symm
      · rw [enqs_append]
        simp
      · rw [starts_append]
        simp [Ne.symm hg]
      · rw [cancels_append]
        simp
  · intro g'
    by_cases hg : g' = g
    · subst hg
      have hact : activeIds (dispatchOp s g' rest item.taskId) g' =
          [item.taskId] := by
        simp [activeIds, dispatchOp_groups, getGroup_setGroup_same]
      rw [hact, openTasks_snoc_start g' tr item.taskId _ _ htb_nosettle, hopen]
      rfl
    · have hact : activeIds (dispatchOp s g rest item.taskId) g' =
          activeIds s g' := by
        simp [activeIds, dispatchOp_groups, getGroup_setGroup_ne _ _ _ _ hg]
      rw [hact, inv.activeCorr g']
      refine (openTasks_congr g' tr _ ?_ ?_).symm
      · rw [starts_append]
        simp [Ne.symm hg]
      · rw [settles_append]
        simp
  · have hkey := countActive_setGroup s.groups g
      ({ pending := rest, active := some ⟨item.taskId, false⟩ } : GroupState)
    rw [dispatchOp_count, dispatchOp_groups]
    simp only [activeBit, ha, Option.isSome_none, Option.isSome_some,
      Bool.false_eq_true, if_false, if_true] at hkey
    have heq := inv.countEq
    omega
  · rw [dispatchOp_count]
    omega
  · refine orderedStarts_snoc_start tr g item.taskId _ (by intro g' t'; simp)
      inv.ordered ?_
    rintro ta ⟨A1, A2, htr, hmem⟩
    by_cases hset : SettledIn tr g ta
    · exact hset
    · exfalso
      have hns : ta ∉ settles g tr := by
        intro hm
        rcases (mem_settles_iff g ta tr).mp hm with ⟨st, hst⟩
        exact hset (Or.inl ⟨st, hst⟩)
      have hnc : ta ∉ cancels g tr := fun hm =>
        hset (Or.inr ((mem_cancels_iff g ta tr).mp hm))
      by_cases hstart : ta ∈ starts g tr
      · have hmem2 : ta ∈ openTasks g tr :=
          List.mem_filter.mpr ⟨hstart, by simp [hns]⟩
        rw [hopen] at hmem2
        simp at hmem2
      · have hE : enqs g tr = enqs g A1 ++ ta :: enqs g A2 := by
          rw [htr, enqs_append]
          simp
        have htbE2 : item.taskId ∈ enqs g A2 :=
          List.mem_filterMap.mpr ⟨_, hmem, by simp⟩
        have hnd : (enqs g tr).Nodup := enqs_nodup inv.enqNodup g
        rw [hE] at hnd
        obtain ⟨hta_nin, hnd3⟩ := List.nodup_cons.mp (List.nodup_middle.mp hnd)
        have hsplit : traceQueue g tr =
            (enqs g A1).filter
              (fun t => decide (t ∉ starts g tr) && decide (t ∉ cancels g tr)) ++
            ta :: (enqs g A2).filter
              (fun t => decide (t ∉ starts g tr) && decide (t ∉ cancels g tr)) := by
          unfold traceQueue
          rw [hE, List.filter_append, List.filter_cons,
            if_pos (by simp [hstart, hnc])]
        have hcomb := (hpend.symm.trans (inv.pendingCorr g)).trans hsplit
        cases hE1 : (enqs g A1).filter
            (fun t => decide (t ∉ starts g tr) && decide (t ∉ cancels g tr)) with
        | nil =>
          rw [hE1, List.nil_append] at hcomb
          obtain ⟨heq1, -⟩ := List.cons.inj hcomb
          rw [heq1] at htbE2
          exact hta_nin (List.mem_append_right _ htbE2)
        | cons h1 t1 =>
          rw [hE1, List.cons_append] at hcomb
          obtain ⟨hh1, -⟩ := List.cons.inj hcomb
          have hmem1 : h1 ∈ (enqs g A1).filter
              (fun t => decide (t ∉ starts g tr) && decide (t ∉ cancels g tr)) := by
            rw [hE1]
            exact List.mem_cons_self _ _
          have htbE1 : item.taskId ∈ enqs g A1 := by
            rw [hh1]
            exact (List.mem_filter.mp hmem1).1
          obtain ⟨-, -, hdisj⟩ := List.nodup_append.mp hnd3
          exact hdisj htbE1 htbE2

theorem qinv_settle {MAX : Nat} {s : QueueState} {tr : List QEvent}
    (inv : QInv MAX s tr) {g : GroupKey} {h : ExecutionHandle}
    (status : SettleStatus)
    (ha : (getGroup s.groups g).active = some h) :
    QInv MAX (settleOp s g)
      (tr ++ [QEvent.settle g h.taskId status,
        QEvent.notification (settleOp s g).globalActiveCount
          (activeGroupKeys (settleOp s g))]) := by
  have hopen : openTasks g tr = [h.taskId] := by
    rw [← inv.activeCorr g]
    simp [activeIds, ha]
  have ht0_starts : h.taskId ∈ starts g tr := by
    refine openTasks_subset_starts g tr _ ?_
    rw [hopen]
    exact List.mem_cons_self _ _
  have ht0_lt : h.taskId < s.nextTaskId :=
    inv.fresh _ (mem_allIds_of_starts ht0_starts)
  refine ⟨?_, ?_, ?_, ?_, ?_, ?_, ?_, ?_, ?_, ?_⟩
  · intro t ht
    rw [allIds_append] at ht
    simp at ht
    rw [settleOp_nextTaskId]
    rcases ht with ht | ht
    · exact inv.fresh t ht
    · subst ht
      exact ht0_lt
  · rw [allEnqs_append]
    simpa using inv.enqNodup
  · intro g' t ht
    rw [starts_append] at ht
    simp at ht
    have he : enqs g' (tr ++ [QEvent.settle g h.taskId status,
        QEvent.notification (settleOp s g).globalActiveCount
          (activeGroupKeys (settleOp s g))]) = enqs g' tr := by
      rw [enqs_append]
      simp
    rw [he]
    exact inv.startsLe g' t ht
  · intro g' t ht
    rw [cancels_append] at ht
    simp at ht
    have he : enqs g' (tr ++ [QEvent.settle g h.taskId status,
        QEvent.notification (settleOp s g).globalActiveCount
          (activeGroupKeys (settleOp s g))]) = enqs g' tr := by
      rw [enqs_append]
      simp
    rw [he]
    exact inv.cancelsLe g' t ht
  · intro g' t ht
    rw [settles_append] at ht
    have hs : starts g' (tr ++ [QEvent.settle g h.taskId status,
        QEvent.notification (settleOp s g).globalActiveCount
          (activeGroupKeys (settleOp s g))]) = starts g' tr := by
      rw [starts_append]
      simp
    rw [hs]
    by_cases hg : g = g'
    · subst hg
      simp at ht
      rcases ht with ht | ht
      · exact inv.settlesLe g t ht
      · subst ht
        exact ht0_starts
    · simp [hg] at ht
      exact inv.settlesLe g' t ht
  · intro g'
    by_cases hg : g' = g
    · subst hg
      have hpend2 : pendingIds (settleOp s g') g' = pendingIds s g' := by
        simp [pendingIds, settleOp_groups, getGroup_setGroup_same]
      rw [hpend2, inv.pendingCorr g', traceQueue_snoc_settle]
    · have hpend2 : pendingIds (settleOp s g) g' = pendingIds s g' := by
        simp [pendingIds, settleOp_groups, getGroup_setGroup_ne _ _ _ _ hg]
      rw [hpend2, inv.pendingCorr g']
      refine (traceQueue_congr g' tr _ ?_ ?_ ?_).symm
      · rw [enqs_append]
        simp
      · rw [starts_append]
        simp
      · rw [cancels_append]
        simp
  · intro g'
    by_cases hg : g' = g
    · subst hg
      have hact : activeIds (settleOp s g') g' = [] := by
        simp [activeIds, settleOp_groups, getGroup_setGroup_same]
      rw [hact, openTasks_snoc_settle, hopen]
      simp
    · have hact : activeIds (settleOp s g) g' = activeIds s g' := by
        simp [activeIds, settleOp_groups, getGroup_setGroup_ne _ _ _ _ hg]
      rw [hact, inv.activeCorr g']
      refine (openTasks_congr g' tr _ ?_ ?_).symm
      · rw [starts_append]
        simp
      · rw [settles_append]
        simp [Ne.symm hg]
  · have hkey := countActive_setGroup s.groups g
      ({ pending := (getGroup s.groups g).pending, active := none } : GroupState)
    rw [settleOp_count, settleOp_groups]
    simp [activeBit, ha] at hkey
    have hpos := countActive_pos s.groups g h ha
    have heq := inv.countEq
    omega
  · rw [settleOp_count]
    have := inv.countLe
    omega
  · refine orderedStarts_append tr _ inv.ordered ?_
    intro g' t
    simp

theorem qinv_cancel {MAX : Nat} {s : QueueState} {tr : List QEvent}
    (inv : QInv MAX s tr) (g : GroupKey) (t : TaskId) :
    QInv MAX (cancelOp s g t).1 (tr ++ (cancelOp s g t).2.2) := by
  by_cases hmem : t ∈ (getGroup s.groups g).pending.map WorkItem.taskId
  · have hco1 : (cancelOp s g t).1 =
        { s with
          groups :=
            setGroup s.groups g
              ({ pending :=
                  (getGroup s.groups g).pending.filter
                    (fun it => decide (it.taskId ≠ t)),
                 active := (getGroup s.groups g).active }) } := by
      simp [cancelOp, hmem]
    have hco2 : (cancelOp s g t).2.2 = [QEvent.cancelRm g t] := by
      simp [cancelOp, hmem]
    rw [hco1, hco2]
    have htq : t ∈ traceQueue g tr := inv.pendingCorr g ▸ hmem
    have ht_enq : t ∈ enqs g tr := traceQueue_subset_enqs g tr _ htq
    have ht_lt : t < s.nextTaskId := inv.fresh _ (mem_allIds_of_enqs ht_enq)
    refine ⟨?_, ?_, ?_, ?_, ?_, ?_, ?_, ?_, ?_, ?_⟩
    · intro x hx
      rw [allIds_append] at hx
      simp at hx
      rcases hx with hx | hx
      · exact inv.fresh x hx
      · subst hx
        exact ht_lt
    · rw [allEnqs_append]
      simpa using inv.enqNodup
    · intro g' x hx
      rw [starts_append] at hx
      simp at hx
      have he : enqs g' (tr ++ [QEvent.cancelRm g t]) = enqs g' tr := by
        rw [enqs_append]
        simp
      rw [he]
      exact inv.startsLe g' x hx
    · intro g' x hx
      rw [cancels_append] at hx
      have he : enqs g' (tr ++ [QEvent.cancelRm g t]) = enqs g' tr := by
        rw [enqs_append]
        simp
      rw [he]
      by_cases hg : g = g'
      · subst hg
        simp at hx
        rcases hx with hx | hx
        · exact inv.cancelsLe g x hx
        · subst hx
          exact ht_enq
      · simp [hg] at hx
        exact inv.cancelsLe g' x hx
    · intro g' x hx
      rw [settles_append] at hx
      simp at hx
      have hs : starts g' (tr ++ [QEvent.cancelRm g t]) = starts g' tr := by
        rw [starts_append]
        simp
      rw [hs]
      exact inv.settlesLe g' x hx
    · intro g'
      by_cases hg : g' = g
      · subst hg
        have hpend2 : pendingIds
            { s with
              groups :=
                setGroup s.groups g'
                  ({ pending :=
                      (getGroup s.groups g').pending.filter
                        (fun it => decide (it.taskId ≠ t)),
                     active := (getGroup s.groups g').active }) } g' =
            (pendingIds s g').filter (fun x => decide (x ≠ t)) := by
          simp [pendingIds, getGroup_setGroup_same, map_taskId_filter, map_taskId_filter']
        rw [hpend2, inv.pendingCorr g', traceQueue_snoc_cancelRm]
      · have hpend2 : pendingIds
            { s with
              groups :=
                setGroup s.groups g
                  ({ pending :=
                      (getGroup s.groups g).pending.filter
                        (fun it => decide (it.taskId ≠ t)),
                     active := (getGroup s.groups g).active }) } g' =
            pendingIds s g' := by
          simp [pendingIds, getGroup_setGroup_ne _ _ _ _ hg]
        rw [hpend2, inv.pendingCorr g']
        refine (traceQueue_congr g' tr _ ?_ ?_ ?_).symm
        · rw [enqs_append]
          simp
        · rw [starts_append]
          simp
        · rw [cancels_append]
          simp [Ne.symm hg]
    · intro g'
      have hact2 : activeIds
          { s with
            groups :=
              setGroup s.groups g
                ({ pending :=
                    (getGroup s.groups g).pending.filter
                      (fun it => decide (it.taskId ≠ t)),
                   active := (getGroup s.groups g).active }) } g' =
          activeIds s g' := by
        by_cases hg : g' = g
        · subst hg
          simp [activeIds, getGroup_setGroup_same]
        · simp [activeIds, getGroup_setGroup_ne _ _ _ _ hg]
      rw [hact2, inv.activeCorr g', openTasks_snoc_cancelRm]
    · have hkey := countActive_setGroup s.groups g
        ({ pending :=
            (getGroup s.groups g).pending.filter (fun it => decide (it.taskId ≠ t)),
           active := (getGroup s.groups g).active } : GroupState)
      simp only [activeBit] at hkey
      have heq := inv.countEq
      show s.globalActiveCount =
        countActive
          (setGroup s.groups g
            ({ pending :=
                (getGroup s.groups g).pending.filter
                  (fun it => decide (it.taskId ≠ t)),
               active := (getGroup s.groups g).active }))
      omega
    · exact inv.countLe
    · refine orderedStarts_append tr _ inv.ordered ?_
      intro g' x
      simp
  · cases hact : (getGroup s.groups g).active with
    | some hdl =>
      by_cases hid : hdl.taskId = t
      · have hco1 : (cancelOp s g t).1 =
            { s with
              groups :=
                setGroup s.groups g
                  ({ pending := (getGroup s.groups g).pending,
                     active :=
                       some { taskId := hdl.taskId, cancelRequested := true } }) } := by
          simp [cancelOp, hmem, hact, hid]
        have hco2 : (cancelOp s g t).2.2 = [] := by
          simp [cancelOp, hmem, hact, hid]
        rw [hco1, hco2, List.append_nil]
        refine ⟨inv.fresh, inv.enqNodup, inv.startsLe, inv.cancelsLe,
          inv.settlesLe, ?_, ?_, ?_, inv.countLe, inv.ordered⟩
        · intro g'
          have hpend2 : pendingIds
              { s with
                groups :=
                  setGroup s.groups g
                    ({ pending := (getGroup s.groups g).pending,
                       active :=
                         some { taskId := hdl.taskId,
                                cancelRequested := true } }) } g' =
              pendingIds s g' := by
            by_cases hg : g' = g
            · subst hg
              simp [pendingIds, getGroup_setGroup_same]
            · simp [pendingIds, getGroup_setGroup_ne _ _ _ _ hg]
          rw [hpend2]
          exact inv.pendingCorr g'
        · intro g'
          have hact2 : activeIds
              { s with
                groups :=
                  setGroup s.groups g
                    ({ pending := (getGroup s.groups g).pending,
                       active :=
                         some { taskId := hdl.taskId,
                                cancelRequested := true } }) } g' =
              activeIds s g' := by
            by_cases hg : g' = g
            · subst hg
              simp [activeIds, getGroup_setGroup_same, hact]
            · simp [activeIds, getGroup_setGroup_ne _ _ _ _ hg]
          rw [hact2]
          exact inv.activeCorr g'
        · have hkey := countActive_setGroup s.groups g
            ({ pending := (getGroup s.groups g).pending,
               active := some { taskId := hdl.taskId,
                                cancelRequested := true } } : GroupState)
          simp [activeBit, hact] at hkey
          have heq := inv.countEq
          show s.globalActiveCount =
            countActive
              (setGroup s.groups g
                ({ pending := (getGroup s.groups g).pending,
                   active :=
                     some { taskId := hdl.taskId, cancelRequested := true } }))
          omega
      · have hco : cancelOp s g t = (s, CancelResult.notFound, []) := by
          simp [cancelOp, hmem, hact, hid]
        simp only [hco]
        simpa using inv
    | none =>
      have hco : cancelOp s g t = (s, CancelResult.notFound, []) := by
        simp [cancelOp, hmem, hact]
      simp only [hco]
      simpa using inv

theorem qinv_init (MAX : Nat) : QInv MAX initQueue [] := by
  refine ⟨?_, ?_, ?_, ?_, ?_, ?_, ?_, ?_, ?_, ?_⟩
  · intro t ht
    simp at ht
  · simp
  · intro g t ht
    simp at ht
  · intro g t ht
    simp at ht
  · intro g t ht
    simp at ht
  · intro g
    simp [pendingIds, initQueue, GroupState.empty, traceQueue]
  · intro g
    simp [activeIds, initQueue, GroupState.empty, openTasks]
  · rfl
  · exact Nat.zero_le MAX
  · exact orderedStarts_nil

theorem qinv_of_reachable {MAX : Nat} {s : QueueState} {tr : List QEvent}
    (h : Reachable MAX s tr) : QInv MAX s tr := by
  induction h with
  | init => exact qinv_init MAX
  | step hr hst ih =>
    cases hst with
    | enqueue g payload kind => exact qinv_enqueue ih g payload kind
    | dispatch g item rest hp ha hc => exact qinv_dispatch ih hp ha hc
    | settleStep g hdl status ha => exact qinv_settle ih status ha
    | cancel g t => exact qinv_cancel ih g t

theorem cancelOp_count (s : QueueState) (g : GroupKey) (t : TaskId) :
    (cancelOp s g t).1.globalActiveCount = s.globalActiveCount := by
  by_cases hmem : t ∈ (getGroup s.groups g).pending.map WorkItem.taskId
  · simp [cancelOp, hmem]
  · cases hact : (getGroup s.groups g).active with
    | some hdl =>
      by_cases hid : hdl.taskId = t <;> simp [cancelOp, hmem, hact, hid]
    | none => simp [cancelOp, hmem, hact]

theorem cancelOp_no_notifications (s : QueueState) (g : GroupKey) (t : TaskId) :
    notifications (cancelOp s g t).2.2 = [] := by
  by_cases hmem : t ∈ (getGroup s.groups g).pending.map WorkItem.taskId
  · simp [cancelOp, hmem, notifications]
  · cases hact : (getGroup s.groups g).active with
    | some hdl =>
      by_cases hid : hdl.taskId = t <;>
        simp [cancelOp, hmem, hact, hid, notifications]
    | none => simp [cancelOp, hmem, hact, notifications]

/-- Demonstration run: enqueue one item for group "a" on a fresh queue with
`MAX_CONCURRENT_AGENTS = 2`, then dispatch it. -/
theorem reach_demo :
    Reachable 2 (dispatchOp (enqueueOp initQueue "a" "hello" WorkKind.message) "a" [] 0)
      ([QEvent.enq "a" 0] ++
        [QEvent.start "a" 0, QEvent.notification 1 ["a"]]) := by
  have r1 : Reachable 2 (enqueueOp initQueue "a" "hello" WorkKind.message)
      ([] ++ [QEvent.enq "a" 0]) :=
    Reachable.step Reachable.init
      (Step.enqueue initQueue "a" "hello" WorkKind.message)
  exact Reachable.step r1
    (Step.dispatch (enqueueOp initQueue "a" "hello" WorkKind.message) "a"
      ⟨0, "hello", WorkKind.message⟩ [] (by decide) (by decide) (by decide))

/-- Demonstration run for ordering: two items enqueued for group "a", the first
dispatched and settled, then the second dispatched (`MAX_CONCURRENT_AGENTS = 2`). -/
theorem reach_demo2 :
    Reachable 2
      (dispatchOp
        (settleOp
          (dispatchOp
            (enqueueOp (enqueueOp initQueue "a" "m1" WorkKind.message)
              "a" "m2" WorkKind.message)
            "a" [⟨1, "m2", WorkKind.message⟩] 0)
          "a")
        "a" [] 1)
      ([QEvent.enq "a" 0] ++ [QEvent.enq "a" 1] ++
        [QEvent.start "a" 0, QEvent.notification 1 ["a"]] ++
        [QEvent.settle "a" 0 SettleStatus.success, QEvent.notification 0 []] ++
        [QEvent.start "a" 1, QEvent.notification 1 ["a"]]) := by
  have r1 : Reachable 2 (enqueueOp initQueue "a" "m1" WorkKind.message)
      ([] ++ [QEvent.enq "a" 0]) :=
    Reachable.step Reachable.init
      (Step.enqueue initQueue "a" "m1" WorkKind.message)
  have r2 : Reachable 2
      (enqueueOp (enqueueOp initQueue "a" "m1" WorkKind.message) "a" "m2"
        WorkKind.message)
      (([] ++ [QEvent.enq "a" 0]) ++ [QEvent.enq "a" 1]) :=
    Reachable.step r1
      (Step.enqueue (enqueueOp initQueue "a" "m1" WorkKind.message) "a" "m2"
        WorkKind.message)
  have r3 := Reachable.step r2
    (Step.dispatch
      (enqueueOp (enqueueOp initQueue "a" "m1" WorkKind.message) "a" "m2"
        WorkKind.message)
      "a" ⟨0, "m1", WorkKind.message⟩ [⟨1, "m2", WorkKind.message⟩]
      (by decide) (by decide) (by decide))
  have r4 := Reachable.step r3
    (Step.settleStep
      (dispatchOp
        (enqueueOp (enqueueOp initQueue "a" "m1" WorkKind.message) "a" "m2"
          WorkKind.message)
        "a" [⟨1, "m2", WorkKind.message⟩] 0)
      "a" ⟨0, false⟩ SettleStatus.success (by decide))
  have r5 := Reachable.step r4
    (Step.dispatch
      (settleOp
        (dispatchOp
          (enqueueOp (enqueueOp initQueue "a" "m1" WorkKind.message) "a" "m2"
            WorkKind.message)
          "a" [⟨1, "m2", WorkKind.message⟩] 0)
        "a")
      "a" ⟨1, "m2", WorkKind.message⟩ [] (by decide) (by decide) (by decide))
  exact r5

/-! ## Claim theorems: the Group Queue -/

/-- C1: in every reachable state of the Group Queue, at most one execution of
any group `g` is in flight — the trace never shows two started-but-unsettled
tasks for one group, the in-flight tasks coincide with the group's active
handle, and the state holds at most one active handle per group. -/
theorem single_active_execution_per_group {MAX : Nat} {s : QueueState}
    {tr : List QEvent} (hr : Reachable MAX s tr) (g : GroupKey) :
    (openTasks g tr).length ≤ 1 ∧ openTasks g tr = activeIds s g ∧
      (activeIds s g).length ≤ 1 := by
  have inv := qinv_of_reachable hr
  have h := (inv.activeCorr g).symm
  have hlen : (activeIds s g).length ≤ 1 := by
    unfold activeIds
    cases (getGroup s.groups g).active <;> simp
  exact ⟨h ▸ hlen, h, hlen⟩

/-- Witness for C1 on a concrete run: one item enqueued and dispatched for
group "a". -/
theorem single_active_execution_per_group_witness :
    (openTasks "a" ([QEvent.enq "a" 0] ++
        [QEvent.start "a" 0, QEvent.notification 1 ["a"]])).length ≤ 1 ∧
      openTasks "a" ([QEvent.enq "a" 0] ++
        [QEvent.start "a" 0, QEvent.notification 1 ["a"]]) =
        activeIds (dispatchOp (enqueueOp initQueue "a" "hello" WorkKind.message)
          "a" [] 0) "a" ∧
      (activeIds (dispatchOp (enqueueOp initQueue "a" "hello" WorkKind.message)
        "a" [] 0) "a").length ≤ 1 :=
  single_active_execution_per_group reach_demo "a"

/-- C2: in every reachable state, `globalActiveCount` is at most
`MAX_CONCURRENT_AGENTS` and equals the number of currently-active execution
handles across all groups. -/
theorem globalActiveCount_invariant {MAX : Nat} {s : QueueState}
    {tr : List QEvent} (hr : Reachable MAX s tr) :
    s.globalActiveCount ≤ MAX ∧ s.globalActiveCount = countActive s.groups :=
  ⟨(qinv_of_reachable hr).countLe, (qinv_of_reachable hr).countEq⟩

/-- Witness for C2 on the same concrete run. -/
theorem globalActiveCount_invariant_witness :
    (dispatchOp (enqueueOp initQueue "a" "hello" WorkKind.message) "a" [] 0
        ).globalActiveCount ≤ 2 ∧
      (dispatchOp (enqueueOp initQueue "a" "hello" WorkKind.message) "a" [] 0
        ).globalActiveCount =
        countActive (dispatchOp (enqueueOp initQueue "a" "hello"
          WorkKind.message) "a" [] 0).groups :=
  globalActiveCount_invariant reach_demo

/-- C3: on every reachable trace, the WorkItems of one group are served in
enqueue order: whenever the execution of a later-enqueued task begins, every
earlier-enqueued task of the same group has already fully settled (the runner
reported a terminal status, or the item was destroyed while pending by a
cancel). -/
theorem workitems_fifo_per_group {MAX : Nat} {s : QueueState}
    {tr : List QEvent} (hr : Reachable MAX s tr) : OrderedStarts tr :=
  (qinv_of_reachable hr).ordered

/-- Witness for C3: on the concrete two-item run, when task 1 starts, task 0
has already settled within the preceding trace. -/
theorem workitems_fifo_per_group_witness :
    SettledIn
      [QEvent.enq "a" 0, QEvent.enq "a" 1, QEvent.start "a" 0,
        QEvent.notification 1 ["a"], QEvent.settle "a" 0 SettleStatus.success,
        QEvent.notification 0 []] "a" 0 :=
  workitems_fifo_per_group reach_demo2 "a" 0 1
    [QEvent.enq "a" 0, QEvent.enq "a" 1, QEvent.start "a" 0,
      QEvent.notification 1 ["a"], QEvent.settle "a" 0 SettleStatus.success,
      QEvent.notification 0 []]
    [QEvent.notification 1 ["a"]]
    (by decide)
    ⟨[], [QEvent.enq "a" 1, QEvent.start "a" 0, QEvent.notification 1 ["a"],
        QEvent.settle "a" 0 SettleStatus.success, QEvent.notification 0 []],
      by decide, by decide⟩

/-- C6: every step of the Group Queue that changes `globalActiveCount` emits
exactly one notification, synchronously within that step's event batch, and its
payload is the new count together with the snapshot of active group keys of the
post-state; a step that leaves the count unchanged emits none. -/
theorem active_count_change_notification {MAX : Nat} {s : QueueState}
    {tr evs : List QEvent} {s' : QueueState} (hr : Reachable MAX s tr)
    (hstep : Step MAX s evs s') :
    notifications evs =
      (if s'.globalActiveCount = s.globalActiveCount then []
       else [QEvent.notification s'.globalActiveCount (activeGroupKeys s')]) := by
  cases hstep with
  | enqueue g payload kind =>
    rw [if_pos (enqueueOp_count s g payload kind)]
    rfl
  | dispatch g item rest hp ha hc =>
    rw [if_neg (by rw [dispatchOp_count]; omega)]
    rfl
  | settleStep g hdl status ha =>
    have inv := qinv_of_reachable hr
    have hpos : 0 < countActive s.groups := countActive_pos s.groups g hdl ha
    have heq := inv.countEq
    rw [if_neg (by rw [settleOp_count]; omega)]
    rfl
  | cancel g t =>
    rw [cancelOp_no_notifications, if_pos (cancelOp_count s g t)]

/-- Witness for C6: the dispatch step of the concrete run emits exactly its one
notification. -/
theorem active_count_change_notification_witness :
    notifications [QEvent.start "a" 0, QEvent.notification 1 ["a"]] =
      [QEvent.notification 1 ["a"]] := by
  have r1 : Reachable 2 (enqueueOp initQueue "a" "hello" WorkKind.message)
      ([] ++ [QEvent.enq "a" 0]) :=
    Reachable.step Reachable.init
      (Step.enqueue initQueue "a" "hello" WorkKind.message)
  have h := active_count_change_notification r1
    (Step.dispatch (enqueueOp initQueue "a" "hello" WorkKind.message) "a"
      ⟨0, "hello", WorkKind.message⟩ [] (by decide) (by decide) (by decide))
  simpa using h

/-- C7: cancelling a task id that is neither pending nor active for the group
(an unknown, already-settled, or already-removed id) returns not-found, is a
total function (never throws), and returns the state completely unchanged —
the pending queues and active handles of this and every other group are
untouched. -/
theorem cancel_unknown_id_noop (s : QueueState) (g : GroupKey) (t : TaskId)
    (hpend : t ∉ pendingIds s g) (hact : t ∉ activeIds s g) :
    cancelOp s g t = (s, CancelResult.notFound, []) := by
  have hpend2 : t ∉ (getGroup s.groups g).pending.map WorkItem.taskId := hpend
  simp only [cancelOp]
  rw [if_neg hpend2]
  cases hact2 : (getGroup s.groups g).active with
  | some h =>
    have hne : ¬h.taskId = t := by
      intro he
      apply hact
      simp [activeIds, hact2, he]
    simp [hne]
  | none => rfl

/-- Witness for C7: cancelling the unknown id 5 on a queue whose group "a" has
pending task 0 and active task 1 reports not-found and changes nothing. -/
theorem cancel_unknown_id_noop_witness :
    cancelOp
      { groups := [("a",
          { pending := [⟨0, "x", WorkKind.message⟩],
            active := some ⟨1, false⟩ })],
        globalActiveCount := 1, nextTaskId := 2 } "a" 5 =
      ({ groups := [("a",
          { pending := [⟨0, "x", WorkKind.message⟩],
            active := some ⟨1, false⟩ })],
         globalActiveCount := 1, nextTaskId := 2 }, CancelResult.notFound, []) :=
  cancel_unknown_id_noop
    { groups := [("a",
        { pending := [⟨0, "x", WorkKind.message⟩],
          active := some ⟨1, false⟩ })],
      globalActiveCount := 1, nextTaskId := 2 } "a" 5 (by decide) (by decide)

/-! ## Claim theorems: timeout supervision and orphan reconciliation -/

theorem activity_foldl_preserves (h0 : HandleTimers) (l : List Nat) :
    (l.foldl applyActivity h0).activatedAt = h0.activatedAt ∧
      (l.foldl applyActivity h0).settled = h0.settled := by
  induction l generalizing h0 with
  | nil => exact ⟨rfl, rfl⟩
  | cons a l ih =>
    have hstep : (applyActivity h0 a).activatedAt = h0.activatedAt ∧
        (applyActivity h0 a).settled = h0.settled := by
      unfold applyActivity
      split <;> simp
    rw [List.foldl_cons]
    exact ⟨(ih _).1.trans hstep.1, (ih _).2.trans hstep.2⟩

/-- C4: the hard timeout of a running handle fires exactly at
`activatedAt + AGENT_TIMEOUT` and settles it with `timeout:hard`, no matter how
many activity signals arrive: activity never moves the hard deadline and never
settles the handle, while it does reset the idle deadline to
`now + IDLE_TIMEOUT`. -/
theorem hard_timeout_fires_despite_activity (AGENT_TIMEOUT IDLE_TIMEOUT : Nat)
    (h0 : HandleTimers) (activity : List Nat) (hrun : h0.settled = none) :
    hardDeadline AGENT_TIMEOUT (activity.foldl applyActivity h0) =
        hardDeadline AGENT_TIMEOUT h0 ∧
      (activity.foldl applyActivity h0).settled = none ∧
      (fireHardTimeout AGENT_TIMEOUT (activity.foldl applyActivity h0)
          (hardDeadline AGENT_TIMEOUT h0)).settled =
        some SettleStatus.timeoutHard ∧
      (∀ now, idleDeadline IDLE_TIMEOUT
          (applyActivity (activity.foldl applyActivity h0) now) =
        now + IDLE_TIMEOUT) := by
  obtain ⟨hA, hS⟩ := activity_foldl_preserves h0 activity
  have hS0 : (activity.foldl applyActivity h0).settled = none := by
    rw [hS, hrun]
  have hHD : hardDeadline AGENT_TIMEOUT (activity.foldl applyActivity h0) =
      hardDeadline AGENT_TIMEOUT h0 := by
    unfold hardDeadline
    rw [hA]
  refine ⟨hHD, hS0, ?_, ?_⟩
  · unfold fireHardTimeout
    rw [if_pos ⟨hS0, le_of_eq hHD⟩]
  · intro now
    rw [applyActivity, if_neg (by rw [hS0]; simp), idleDeadline]

/-- Witness for C4: a handle activated at 5 with `AGENT_TIMEOUT = 100` and
`IDLE_TIMEOUT = 10`, receiving activity at 7, 8 and 9. -/
theorem hard_timeout_fires_despite_activity_witness :
    hardDeadline 100 (List.foldl applyActivity ⟨5, 5, none⟩ [7, 8, 9]) =
        hardDeadline 100 ⟨5, 5, none⟩ ∧
      (List.foldl applyActivity (⟨5, 5, none⟩ : HandleTimers) [7, 8, 9]).settled =
        none ∧
      (fireHardTimeout 100 (List.foldl applyActivity ⟨5, 5, none⟩ [7, 8, 9])
          (hardDeadline 100 ⟨5, 5, none⟩)).settled =
        some SettleStatus.timeoutHard ∧
      (∀ now, idleDeadline 10
          (applyActivity (List.foldl applyActivity ⟨5, 5, none⟩ [7, 8, 9]) now) =
        now + 10) :=
  hard_timeout_fires_despite_activity 100 10 ⟨5, 5, none⟩ [7, 8, 9] rfl

/-- C5: the orphan reconciler performs zero destructive actions and surfaces a
warning when the recorded pid is alive with active work; with a dead pid, or no
snapshot at all, full cleanup of the leftover containers proceeds. -/
theorem orphan_reconciler_safety (pidAlive : Nat → Bool) (st : StatusSnapshot)
    (orphans : List String) :
    (pidAlive st.pid = true → 0 < st.activeTasks →
        cleanupOrphans pidAlive (some st) orphans =
          { killed := [], warned := true }) ∧
      (pidAlive st.pid = false →
        cleanupOrphans pidAlive (some st) orphans =
          { killed := orphans, warned := false }) ∧
      cleanupOrphans pidAlive none orphans =
        { killed := orphans, warned := false } := by
  refine ⟨?_, ?_, rfl⟩
  · intro h1 h2
    simp [cleanupOrphans, isStale, h1, h2]
  · intro h1
    simp [cleanupOrphans, isStale, h1]

/-- Witness for C5: a snapshot with two active tasks, once with the pid alive
(cleanup skipped, warning surfaced) and once with it dead (cleanup proceeds). -/
theorem orphan_reconciler_safety_witness :
    cleanupOrphans (fun _ => true)
        (some ⟨4242, 0, 5, 2, ["main"], ["nanoclaw-main-1"]⟩)
        ["nanoclaw-main-1"] = { killed := [], warned := true } ∧
      cleanupOrphans (fun _ => false)
        (some ⟨4242, 0, 5, 2, ["main"], ["nanoclaw-main-1"]⟩)
        ["nanoclaw-main-1"] =
        { killed := ["nanoclaw-main-1"], warned := false } :=
  ⟨(orphan_reconciler_safety (fun _ => true)
      ⟨4242, 0, 5, 2, ["main"], ["nanoclaw-main-1"]⟩ ["nanoclaw-main-1"]).1
      rfl (by decide),
   (orphan_reconciler_safety (fun _ => false)
      ⟨4242, 0, 5, 2, ["main"], ["nanoclaw-main-1"]⟩ ["nanoclaw-main-1"]).2.1
      rfl⟩

/-! ## Claim theorems: outbound chunking -/

theorem range_map_take_flatten (m : Nat) (s : List Char) (n : Nat) :
    ((List.range n).map (fun k => (s.drop (k * m)).take m)).flatten =
      s.take (n * m) := by
  induction n with
  | zero => simp
  | succ n ih =>
    rw [List.range_succ, List.map_append, List.flatten_append, ih, Nat.succ_mul,
      List.take_add]
    simp

theorem ceil_mul_ge (m len : Nat) (hm : 0 < m) :
    len ≤ (len + m - 1) / m * m := by
  cases len with
  | zero => simp
  | succ l =>
    have h1 : l + 1 + m - 1 = l + m := by omega
    rw [h1, Nat.add_div_right l hm]
    have h2 := Nat.div_add_mod l m
    have h3 := Nat.mod_lt l hm
    calc l + 1 = m * (l / m) + l % m + 1 := by omega
      _ ≤ m * (l / m) + m := by omega
      _ = (l / m + 1) * m := by ring

theorem sliceChunks_flatten (m : Nat) (hm : 0 < m) (s : List Char) :
    (sliceChunks m s).flatten = s := by
  unfold sliceChunks
  rw [range_map_take_flatten]
  exact List.take_of_length_le (ceil_mul_ge m s.length hm)

theorem sliceChunks_length_le (m : Nat) (s : List Char) (c : List Char)
    (hc : c ∈ sliceChunks m s) : c.length ≤ m := by
  unfold sliceChunks at hc
  rw [List.mem_map] at hc
  obtain ⟨k, -, rfl⟩ := hc
  rw [List.length_take]
  omega

theorem sendChunks_flatten (m : Nat) (hm : 0 < m) (s : List Char) :
    (sendChunks m s).flatten = s := by
  unfold sendChunks
  split
  · simp
  · exact sliceChunks_flatten m hm s

theorem sendChunks_le (m : Nat) (s : List Char) (c : List Char)
    (hc : c ∈ sendChunks m s) : c.length ≤ m := by
  unfold sendChunks at hc
  by_cases hle : s.length ≤ m
  · rw [if_pos hle, List.mem_singleton] at hc
    subst hc
    exact hle
  · rw [if_neg hle] at hc
    exact sliceChunks_length_le m s c hc

theorem sendChunks_short (m : Nat) (s : List Char) (h : s.length ≤ m) :
    sendChunks m s = [s] := by
  unfold sendChunks
  rw [if_pos h]

/-- C8: Telegram sends the MarkdownV2-formatted text in one message when it
fits in 4096 characters and otherwise in consecutive slices of at most 4096;
Discord does the same with its 2000-character limit; in both channels the
concatenation of the sent chunks, in order, is exactly the full text. -/
theorem sendMessage_chunking (toMarkdownV2 : List Char → List Char)
    (text : List Char) :
    ((toMarkdownV2 text).length ≤ 4096 →
        telegramSendMessage toMarkdownV2 text = [toMarkdownV2 text]) ∧
      (∀ c ∈ telegramSendMessage toMarkdownV2 text, c.length ≤ 4096) ∧
      (telegramSendMessage toMarkdownV2 text).flatten = toMarkdownV2 text ∧
      (text.length ≤ 2000 → discordSendMessage text = [text]) ∧
      (∀ c ∈ discordSendMessage text, c.length ≤ 2000) ∧
      (discordSendMessage text).flatten = text := by
  refine ⟨?_, ?_, ?_, ?_, ?_, ?_⟩
  · intro h
    exact sendChunks_short _ _ h
  · intro c hc
    exact sendChunks_le _ _ c hc
  · exact sendChunks_flatten 4096 (by omega) _
  · intro h
    exact sendChunks_short _ _ h
  · intro c hc
    exact sendChunks_le _ _ c hc
  · exact sendChunks_flatten 2000 (by omega) _

/-- Witness for C8: short texts go out as a single message on both channels. -/
theorem sendMessage_chunking_witness :
    telegramSendMessage id ['h', 'i'] = [['h', 'i']] ∧
      discordSendMessage ['y', 'o'] = [['y', 'o']] :=
  ⟨(sendMessage_chunking id ['h', 'i']).1 (by decide),
   (sendMessage_chunking id ['y', 'o']).2.2.2.1 (by decide)⟩

/-! ## Claim theorems: inbound handlers -/

/-- C9: a message from a chat whose key is not in `registeredGroups()` is never
delivered — neither handler ever calls `onMessage` for it — while chat metadata
is still recorded for discovery (for a Telegram non-command text and for a
Discord non-bot message). -/
theorem unregistered_chat_not_delivered (trigger : String → Bool)
    (assistantName : String) (registered : List String) (chatId : Int)
    (text : String) (botMentioned : Bool) (authorIsBot : Bool)
    (channelId : String) (content0 : String) (clientUserSet : Bool)
    (isBotMentioned : Bool) (stripMention : String → String)
    (attachmentDescs : List String) (replyAuthor : Option String) :
    (("tg:" ++ toString chatId) ∉ registered →
        (∀ jid c, ChannelEffect.deliver jid c ∉
          telegramTextHandler trigger assistantName registered chatId text
            botMentioned) ∧
        (¬text.startsWith "/" →
          ChannelEffect.chatMetadata ("tg:" ++ toString chatId) ∈
            telegramTextHandler trigger assistantName registered chatId text
              botMentioned)) ∧
      (("dc:" ++ channelId) ∉ registered →
        (∀ jid c, ChannelEffect.deliver jid c ∉
          discordMessageHandler trigger assistantName registered authorIsBot
            channelId content0 clientUserSet isBotMentioned stripMention
            attachmentDescs replyAuthor) ∧
        (authorIsBot = false →
          ChannelEffect.chatMetadata ("dc:" ++ channelId) ∈
            discordMessageHandler trigger assistantName registered authorIsBot
              channelId content0 clientUserSet isBotMentioned stripMention
              attachmentDescs replyAuthor)) := by
  constructor
  · intro hreg
    constructor
    · intro jid c
      by_cases hcmd : text.startsWith "/"
      · simp [telegramTextHandler, hcmd]
      · simp [telegramTextHandler, hcmd, hreg]
    · intro hcmd
      simp [telegramTextHandler, hcmd, hreg]
  · intro hreg
    constructor
    · intro jid c
      by_cases hbot : authorIsBot = true
      · simp [discordMessageHandler, hbot]
      · simp [discordMessageHandler, hbot, hreg]
    · intro hbot
      simp [discordMessageHandler, hbot, hreg]

/-- Witness for C9 at a concrete unregistered chat on each channel. -/
theorem unregistered_chat_not_delivered_witness :
    ChannelEffect.deliver "tg:7" "hello" ∉
        telegramTextHandler (fun _ => false) "Andy" [] 7 "hello" false ∧
      ChannelEffect.chatMetadata ("dc:" ++ "c1") ∈
        discordMessageHandler (fun _ => false) "Andy" [] false "c1" "hey" false
          false id [] none :=
  ⟨((unregistered_chat_not_delivered (fun _ => false) "Andy" [] 7 "hello" false
      false "c1" "hey" false false id [] none).1 (by decide)).1 "tg:7" "hello",
   ((unregistered_chat_not_delivered (fun _ => false) "Andy" [] 7 "hello" false
      false "c1" "hey" false false id [] none).2 (by decide)).2 rfl⟩

/-! ## Claim theorems: filename sanitization and media paths -/

theorem collapseDots_head (l : List Char) :
    (collapseDots l).head? = l.head? := by
  induction l using collapseDots.induct with
  | case1 => simp [collapseDots]
  | case2 c => simp [collapseDots]
  | case3 a b rest hab ih =>
    rw [collapseDots, if_pos hab, ih]
    simp [hab.1]
  | case4 a b rest hab ih =>
    rw [collapseDots, if_neg hab]
    simp

theorem mem_collapseDots (l : List Char) (c : Char) :
    c ∈ collapseDots l → c ∈ l := by
  induction l using collapseDots.induct with
  | case1 =>
    intro h
    simp [collapseDots] at h
  | case2 d =>
    intro h
    simp [collapseDots] at h
    simp [h]
  | case3 a b rest hab ih =>
    intro h
    rw [collapseDots, if_pos hab] at h
    rcases List.mem_cons.mp (ih h) with h1 | h1
    · subst h1
      simp [hab.1]
    · simp [h1]
  | case4 a b rest hab ih =>
    intro h
    rw [collapseDots, if_neg hab] at h
    rcases List.mem_cons.mp h with h1 | h1
    · simp [h1]
    · rcases List.mem_cons.mp (ih h1) with h2 | h2
      · simp [h2]
      · simp [h2]

theorem collapseDots_chain (l : List Char) :
    List.Chain' (fun x y => ¬(x = '.' ∧ y = '.')) (collapseDots l) := by
  induction l using collapseDots.induct with
  | case1 => simp [collapseDots]
  | case2 c => simp [collapseDots]
  | case3 a b rest hab ih =>
    rw [collapseDots, if_pos hab]
    exact ih
  | case4 a b rest hab ih =>
    rw [collapseDots, if_neg hab]
    rw [List.chain'_cons']
    refine ⟨?_, ih⟩
    intro y hy
    rw [collapseDots_head] at hy
    simp at hy
    subst hy
    exact hab

theorem chain_take {R : Char → Char → Prop} (n : Nat) (l : List Char)
    (h : List.Chain' R l) : List.Chain' R (l.take n) := by
  induction l generalizing n with
  | nil => simp
  | cons a l ih =>
    cases n with
    | zero => simp
    | succ n =>
      rw [List.take_succ_cons]
      rw [List.chain'_cons'] at h ⊢
      obtain ⟨h1, h2⟩ := h
      refine ⟨?_, ih n h2⟩
      intro y hy
      apply h1
      cases l with
      | nil => simp at hy
      | cons b l2 =>
        cases n with
        | zero => simp at hy
        | succ n => simpa using hy

theorem replaceSeparators_clean (l : List Char) :
    ∀ c ∈ replaceSeparators l, isStrippedChar c = false := by
  intro c hc
  rw [replaceSeparators, List.mem_map] at hc
  obtain ⟨a, -, rfl⟩ := hc
  by_cases h : isStrippedChar a = true
  · rw [if_pos h]
    decide
  · rw [if_neg h]
    exact Bool.eq_false_iff.mpr h

theorem splitOnSlash_no_slash (l : List Char) (h : ('/' : Char) ∉ l) :
    splitOnSlash l = [l] := by
  induction l with
  | nil => rfl
  | cons c rest ih =>
    have hc : ¬c = '/' := fun he => h (he ▸ List.mem_cons_self _ _)
    have hr : ('/' : Char) ∉ rest := fun hm => h (List.mem_cons_of_mem _ hm)
    simp [splitOnSlash, ih hr, hc]

theorem normSegments_snoc (segs : List (List Char)) (seg : List Char)
    (h1 : seg ≠ []) (h2 : seg ≠ ['.']) (h3 : seg ≠ ['.', '.']) :
    normSegments (segs ++ [seg]) = normSegments segs ++ [seg] := by
  unfold normSegments
  rw [List.foldl_append, List.foldl_cons, List.foldl_nil]
  unfold normStep
  rw [if_neg (by simp [h1, h2]), if_neg h3]
  exact List.reverse_cons _ _

/-- C10: `sanitizeFilename` always returns at most 200 characters with no
path separator, backslash, colon or NUL and no two consecutive dots; hence
`buildMediaPath` appends a single harmless final path component, and the
result stays inside `MEDIA_DIR/groupFolder` — no traversal out of the group's
media directory through the filename. -/
theorem sanitizeFilename_safe (filename : List Char) :
    (sanitizeFilename filename).length ≤ 200 ∧
      (∀ c ∈ sanitizeFilename filename, isStrippedChar c = false) ∧
      List.Chain' (fun x y => ¬(x = '.' ∧ y = '.')) (sanitizeFilename filename) ∧
      (∀ mediaDir groupFolder messageId : List Char,
        ('/' : Char) ∉ messageId →
        buildMediaPath mediaDir groupFolder messageId filename =
          pathJoin [mediaDir, groupFolder] ++
            [messageId ++ '-' :: sanitizeFilename filename]) := by
  have hclean : ∀ c ∈ sanitizeFilename filename, isStrippedChar c = false := by
    intro c hc
    unfold sanitizeFilename at hc
    exact replaceSeparators_clean filename c
      (mem_collapseDots _ c (List.mem_of_mem_take hc))
  refine ⟨?_, hclean, ?_, ?_⟩
  · unfold sanitizeFilename
    rw [List.length_take]
    omega
  · unfold sanitizeFilename
    exact chain_take 200 _ (collapseDots_chain _)
  · intro mediaDir groupFolder messageId hmsg
    have hname : ('/' : Char) ∉ messageId ++ '-' :: sanitizeFilename filename := by
      intro hmem
      rcases List.mem_append.mp hmem with hmem | hmem
      · exact hmsg hmem
      · rcases List.mem_cons.mp hmem with hmem | hmem
        · exact absurd hmem (by decide)
        · have h2 := hclean _ hmem
          rw [show isStrippedChar '/' = true from by decide] at h2
          exact absurd h2 (by decide)
    have hdash : ('-' : Char) ∈ messageId ++ '-' :: sanitizeFilename filename :=
      List.mem_append_right _ (List.mem_cons_self _ _)
    have hne1 : messageId ++ '-' :: sanitizeFilename filename ≠ [] := by
      intro he
      rw [he] at hdash
      simp at hdash
    have hne2 : messageId ++ '-' :: sanitizeFilename filename ≠ ['.'] := by
      intro he
      rw [he] at hdash
      exact absurd hdash (by decide)
    have hne3 : messageId ++ '-' :: sanitizeFilename filename ≠ ['.', '.'] := by
      intro he
      rw [he] at hdash
      exact absurd hdash (by decide)
    have hsplit : splitOnSlash (messageId ++ '-' :: sanitizeFilename filename) =
        [messageId ++ '-' :: sanitizeFilename filename] :=
      splitOnSlash_no_slash _ hname
    unfold buildMediaPath pathJoin
    simp only [List.map_cons, List.map_nil, List.flatten_cons, List.flatten_nil,
      List.append_nil]
    rw [hsplit, ← List.append_assoc]
    exact normSegments_snoc _ _ hne1 hne2 hne3

/-- Witness for C10: a traversal-attempting filename `"../e"` is neutralized
and the built path is the group directory plus one final component. -/
theorem sanitizeFilename_safe_witness :
    buildMediaPath ['d'] ['g'] ['4', '2'] ['.', '.', '/', 'e'] =
      pathJoin [['d'], ['g']] ++
        [['4', '2'] ++ '-' :: sanitizeFilename ['.', '.', '/', 'e']] :=
  (sanitizeFilename_safe ['.', '.', '/', 'e']).2.2.2 ['d'] ['g'] ['4', '2']
    (by decide)

end Nanoclaw
